import Mathlib

/-!
Verification development for the byline-extraction pipeline of the
tiktokrelay service (src/server.js, the most developed snapshot of the
repository).  The JavaScript string functions are shallowly embedded as
executable Lean functions over `List Char`.  JavaScript regular
expressions are modelled by hand-written deterministic scanners that
reproduce the engine behaviour (leftmost match, greedy quantifiers with
the backtracking that is actually reachable for each concrete pattern,
non-overlapping global replacement, case-insensitive comparison by ASCII
lowercasing).  The character classes are modelled over ASCII, which
covers every input the theorems use; JavaScript `\s` additionally
matches some rare Unicode spaces that never occur here.
-/

/-! ## Character helpers -/

def isWsChar (c : Char) : Bool :=
  c == ' ' || c == '\t' || c == '\n' || c == '\r' || c == '\x0b' || c == '\x0c'

/-- Horizontal whitespace, the class `[^\S\r\n]` of the source. -/
def isHwsChar (c : Char) : Bool :=
  c == ' ' || c == '\t' || c == '\x0b' || c == '\x0c'

def isDigitChar (c : Char) : Bool := '0' ≤ c && c ≤ '9'

def isUpperChar (c : Char) : Bool := 'A' ≤ c && c ≤ 'Z'

def isLowerChar (c : Char) : Bool := 'a' ≤ c && c ≤ 'z'

def isAlphaChar (c : Char) : Bool := isUpperChar c || isLowerChar c

def isAlnumChar (c : Char) : Bool := isAlphaChar c || isDigitChar c

/-- Word characters for `\b`, the class `[A-Za-z0-9_]`. -/
def isWordChar (c : Char) : Bool := isAlnumChar c || c == '_'

def isLowerAlnumChar (c : Char) : Bool := isLowerChar c || isDigitChar c

/-- Case-insensitive character comparison (ASCII lowering, as in the
`i` regex flag and `String.prototype.toLowerCase` on ASCII input). -/
def lowerEq (a b : Char) : Bool := Char.toLower a == Char.toLower b

/-! ## List utilities -/

/-- Case-insensitive prefix test. -/
def isPrefCI : List Char → List Char → Bool
  | [], _ => true
  | _ :: _, [] => false
  | a :: as, b :: bs => lowerEq a b && isPrefCI as bs

/-- Case-insensitive substring test (`needle`, `haystack`). -/
def containsCI (t : List Char) : List Char → Bool
  | [] => isPrefCI t []
  | c :: cs => isPrefCI t (c :: cs) || containsCI t cs

/-- Case-sensitive substring test. -/
def containsCS (t : List Char) : List Char → Bool
  | [] => t.isEmpty
  | c :: cs => t.isPrefixOf (c :: cs) || containsCS t cs

/-- Index of the first (case-sensitive) occurrence of `t`, as
`String.prototype.indexOf`. -/
def idxOfSub (t : List Char) : List Char → Option Nat
  | [] => if t.isEmpty then some 0 else none
  | c :: cs =>
    if t.isPrefixOf (c :: cs) then some 0
    else (idxOfSub t cs).map (· + 1)

/-- Length of the longest prefix satisfying `p` (a greedy character-class
run). -/
def runLen (p : Char → Bool) (l : List Char) : Nat := (l.takeWhile p).length

def trimL (l : List Char) : List Char := l.dropWhile isWsChar

def trimR : List Char → List Char
  | [] => []
  | c :: cs =>
    match trimR cs with
    | [] => if isWsChar c then [] else [c]
    | d :: ds => c :: d :: ds

/-- `String.prototype.trim`. -/
def trimWs (l : List Char) : List Char := trimR (trimL l)

/-- `split('\n')`. -/
def splitNl : List Char → List (List Char)
  | [] => [[]]
  | c :: cs =>
    if c == '\n' then [] :: splitNl cs
    else
      match splitNl cs with
      | [] => [[c]]
      | p :: ps => (c :: p) :: ps

/-- `join(' ')`. -/
def joinSp : List (List Char) → List Char
  | [] => []
  | [x] => x
  | x :: y :: rest => x ++ ' ' :: joinSp (y :: rest)

/-! ## Global regex replacement

`replAll m mask l` replaces every non-overlapping leftmost match of the
matcher `m` (which returns the match length at the head of its argument)
by `mask`, mirroring `String.prototype.replace` with a `g` regex: the
scan advances one character when no match starts at the current
position, and by the match length otherwise.  All matchers below return
positive lengths; `k - 1` on the tail realises an advance of `k`.

The recursion is driven by an explicit fuel so that the functions
compute by kernel reduction; every step consumes at least one
character, so fuel equal to the length of the input never runs out
(the zero-fuel arm is unreachable from the wrappers). -/

def replAllF (m : List Char → Option Nat) (mask : List Char) : Nat → List Char → List Char
  | 0, l => l
  | _ + 1, [] => []
  | fuel + 1, c :: cs =>
    match m (c :: cs) with
    | some k => mask ++ replAllF m mask fuel (cs.drop (k - 1))
    | none => c :: replAllF m mask fuel cs

def replAll (m : List Char → Option Nat) (mask : List Char) (l : List Char) : List Char :=
  replAllF m mask l.length l

/-- As `replAll`, for matchers that look behind one character (for
`\b`); the previous character of the original string is threaded
through, since the engine matches against the original string. -/
def replAllBF (m : Option Char → List Char → Option Nat) (mask : List Char) :
    Nat → Option Char → List Char → List Char
  | 0, _, l => l
  | _ + 1, _, [] => []
  | fuel + 1, pv, c :: cs =>
    match m pv (c :: cs) with
    | some k => mask ++ replAllBF m mask fuel ((c :: cs)[k - 1]?) (cs.drop (k - 1))
    | none => c :: replAllBF m mask fuel (some c) cs

def replAllB (m : Option Char → List Char → Option Nat) (mask : List Char)
    (pv : Option Char) (l : List Char) : List Char :=
  replAllBF m mask l.length pv l

/-! ## Matchers for the individual regexes -/

/-- `\s+` (for the global collapse to a single space). -/
def mWsRun (l : List Char) : Option Nat :=
  let k := runLen isWsChar l
  if k == 0 then none else some k

/-- `\r\n`. -/
def mCrLf : List Char → Option Nat
  | '\r' :: '\n' :: _ => some 2
  | _ => none

def isEmailLocalChar (c : Char) : Bool :=
  isAlnumChar c || c == '.' || c == '_' || c == '%' || c == '+' || c == '-'

def isEmailDomChar (c : Char) : Bool := isAlnumChar c || c == '.' || c == '-'

/-- Backtracking of `[A-Z0-9.-]+\.[A-Z]{2,}` inside the maximal
domain-class run: the engine takes the largest dot position that is
followed by at least two letters; the consumed length within the run is
returned.  The argument is the candidate dot index. -/
def emailDotScan (run : List Char) : Nat → Option Nat
  | 0 => none
  | d + 1 =>
    let lr := runLen isAlphaChar (run.drop (d + 2))
    if run[d + 1]? == some '.' && decide (2 ≤ lr) then some (d + 2 + lr)
    else emailDotScan run d

/-- `[A-Z0-9._%+-]+@[A-Z0-9.-]+\.[A-Z]{2,}` with the `i` flag.  The `@`
is not in the local class and letters are in the domain class, so the
only backtracking the engine performs is the dot-position search. -/
def mEmail (l : List Char) : Option Nat :=
  let ll := runLen isEmailLocalChar l
  if ll == 0 then none
  else
    match l.drop ll with
    | '@' :: rest =>
      let dr := rest.takeWhile isEmailDomChar
      match emailDotScan dr (dr.length - 1) with
      | some m => some (ll + 1 + m)
      | none => none
    | _ => none

/-- The literal alternation `https?:\/\/|www\.` (case-insensitive),
returning the consumed length. -/
def urlPrefLen (l : List Char) : Option Nat :=
  if isPrefCI "https://".data l then some 8
  else if isPrefCI "http://".data l then some 7
  else if isPrefCI "www.".data l then some 4
  else none

/-- `\b(?:https?:\/\/|www\.)\S+` with the `i` flag.  Both alternatives
start with a word character, so the boundary holds exactly when the
previous character is absent or not a word character. -/
def mUrl (pv : Option Char) (l : List Char) : Option Nat :=
  let bOk := match pv with
    | none => true
    | some c => !isWordChar c
  if !bOk then none
  else
    match urlPrefLen l with
    | none => none
    | some p =>
      let r := runLen (fun c => !isWsChar c) (l.drop p)
      if r == 0 then none else some (p + r)

/-- `\b(?:https?:\/\/|www\.)[^\s)]+` with the `i` flag (the variant in
`stripLinksAndJunk`). -/
def mUrlNoParen (pv : Option Char) (l : List Char) : Option Nat :=
  let bOk := match pv with
    | none => true
    | some c => !isWordChar c
  if !bOk then none
  else
    match urlPrefLen l with
    | none => none
    | some p =>
      let r := runLen (fun c => !isWsChar c && c != ')') (l.drop p)
      if r == 0 then none else some (p + r)

/-- `\[[^\]]*?\]\([^)]+?\)` when `minInner = 0` and
`\[[^\]]+\]\([^)]+\)` when `minInner = 1`.  The lazy and greedy
variants agree because the inner classes exclude the closing
delimiters. -/
def mMdLink (minInner : Nat) (l : List Char) : Option Nat :=
  match l with
  | '[' :: rest =>
    let a := rest.takeWhile (fun c => c != ']')
    if decide (minInner ≤ a.length) then
      match rest.drop a.length with
      | ']' :: '(' :: r2 =>
        let b := r2.takeWhile (fun c => c != ')')
        if b.length == 0 then none
        else
          match r2.drop b.length with
          | ')' :: _ => some (a.length + b.length + 4)
          | _ => none
      | _ => none
    else none
  | _ => none

/-- `\((?:https?:\/\/|www\.)[^)]+\)` with the `i` flag. -/
def mParenUrl (l : List Char) : Option Nat :=
  match l with
  | '(' :: rest =>
    match urlPrefLen rest with
    | none => none
    | some p =>
      let b := (rest.drop p).takeWhile (fun c => c != ')')
      if b.length == 0 then none
      else
        match (rest.drop p).drop b.length with
        | ')' :: _ => some (1 + p + b.length + 1)
        | _ => none
  | _ => none

/-- `(?:\.{3}|…)\s*more` with the `i` flag. -/
def mMore (l : List Char) : Option Nat :=
  let hd : Option Nat :=
    match l with
    | '.' :: '.' :: '.' :: _ => some 3
    | '…' :: _ => some 1
    | _ => none
  match hd with
  | none => none
  | some h =>
    let w := runLen isWsChar (l.drop h)
    if isPrefCI "more".data (l.drop (h + w)) then some (h + w + 4) else none

/-- The single-character class `[\[\]{}]`. -/
def mBrkChar (l : List Char) : Option Nat :=
  match l.head? with
  | some c => if c == '[' || c == ']' || c == '\x7b' || c == '\x7d' then some 1 else none
  | none => none

/-- `\band\s+\d+\s+more\s+links?\b` with the `i` flag.  The optional
`s` is taken greedily; when the following character is a word character
the engine backtracks to the singular, which then also fails on the
boundary because that character is `s` itself. -/
def mAndMore (pv : Option Char) (l : List Char) : Option Nat :=
  let bOk := match pv with
    | none => true
    | some c => !isWordChar c
  if !bOk then none
  else if !isPrefCI "and".data l then none
  else
    let w1 := runLen isWsChar (l.drop 3)
    if w1 == 0 then none
    else
      let p2 := 3 + w1
      let d := runLen isDigitChar (l.drop p2)
      if d == 0 then none
      else
        let p3 := p2 + d
        let w2 := runLen isWsChar (l.drop p3)
        if w2 == 0 then none
        else
          let p4 := p3 + w2
          if !isPrefCI "more".data (l.drop p4) then none
          else
            let p5 := p4 + 4
            let w3 := runLen isWsChar (l.drop p5)
            if w3 == 0 then none
            else
              let p6 := p5 + w3
              if !isPrefCI "link".data (l.drop p6) then none
              else
                let p7 := p6 + 4
                match (l.drop p7).head? with
                | some c =>
                  if c == 's' || c == 'S' then
                    match (l.drop (p7 + 1)).head? with
                    | some c2 => if isWordChar c2 then none else some (p7 + 1)
                    | none => some (p7 + 1)
                  else if isWordChar c then none
                  else some p7
                | none => some p7

/-- `[ \t]+\n`. -/
def mHwsNl (l : List Char) : Option Nat :=
  let k := runLen (fun c => c == ' ' || c == '\t') l
  if k == 0 then none
  else
    match l.drop k with
    | '\n' :: _ => some (k + 1)
    | _ => none

/-- `\n{3,}`. -/
def mNl3 (l : List Char) : Option Nat :=
  let k := runLen (fun c => c == '\n') l
  if decide (3 ≤ k) then some k else none

/-- `\*\*\s*·\s*\*\*`. -/
def mStarDot (l : List Char) : Option Nat :=
  match l with
  | '*' :: '*' :: rest =>
    let w1 := runLen isWsChar rest
    match rest.drop w1 with
    | '·' :: r2 =>
      let w2 := runLen isWsChar r2
      match r2.drop w2 with
      | '*' :: '*' :: _ => some (w1 + w2 + 5)
      | _ => none
    | _ => none
  | _ => none

/-- `\[\s*\]`. -/
def mEmptyBrk (l : List Char) : Option Nat :=
  match l with
  | '[' :: rest =>
    let w := runLen isWsChar rest
    match rest.drop w with
    | ']' :: _ => some (w + 2)
    | _ => none
  | _ => none

/-! ## Collapse and trim -/

def collapseWsL (l : List Char) : List Char := replAll mWsRun [' '] l

def collapseTrim (l : List Char) : List Char := trimWs (collapseWsL l)

/-! ## stripMaskedTail (src/server.js lines 59-77) -/

/-- End check shared by the tail test: optional whitespace then end of
string. -/
def wsToEnd (l : List Char) : Bool := (l.dropWhile isWsChar).isEmpty

def isTailPunct (c : Char) : Bool :=
  c == ')' || c == ']' || c == '\x7d' || c == '.' || c == ',' || c == ';' ||
  c == ':' || c == '!' || c == '?'

/-- After a masked run: `[^\S\r\n]*(?:[;:]-?\)|[)\]}.,;:!?]+)?\s*$`.
The optional group is an existential over its three shapes. -/
def maskedTailProbe (l : List Char) : Bool :=
  let r1 := l.drop (runLen isHwsChar l)
  let optNone := wsToEnd r1
  let optEmo :=
    match r1 with
    | c1 :: '-' :: ')' :: r2 => (c1 == ';' || c1 == ':') && wsToEnd r2
    | c1 :: ')' :: r2 => (c1 == ';' || c1 == ':') && wsToEnd r2
    | _ => false
  let pr := runLen isTailPunct r1
  let optPunct := pr != 0 && wsToEnd (r1.drop pr)
  optNone || optEmo || optPunct

/-- The guard test `\*{4,}[^\S\r\n]*(?:[;:]-?\)|[)\]}.,;:!?]+)?\s*$`
(an unanchored search, hence the scan over all positions; only the
maximal star run can succeed since `*` is in none of the later
classes). -/
def maskedTailTest : List Char → Bool
  | [] => false
  | '*' :: rest =>
    let k := runLen (fun c => c == '*') ('*' :: rest)
    (decide (4 ≤ k) && maskedTailProbe (('*' :: rest).drop k)) || maskedTailTest rest
  | _ :: rest => maskedTailTest rest

/-- `\s*(?:;|:)-?\)\s*$` replaced by the empty string (at most one
match can end at the end of the string; the leftmost start swallows the
maximal preceding whitespace). -/
def stripEmoEnd (l : List Char) : List Char :=
  let r1 := l.reverse.dropWhile isWsChar
  match r1 with
  | ')' :: '-' :: c :: r2 =>
    if c == ';' || c == ':' then (r2.dropWhile isWsChar).reverse else l
  | ')' :: c :: r2 =>
    if c == ';' || c == ':' then (r2.dropWhile isWsChar).reverse else l
  | _ => l

/-- `\s*[)\]}]+\s*$` replaced by the empty string. -/
def stripBrkEnd (l : List Char) : List Char :=
  let r1 := l.reverse.dropWhile isWsChar
  let k := runLen (fun c => c == ')' || c == ']' || c == '\x7d') r1
  if k == 0 then l else ((r1.drop k).dropWhile isWsChar).reverse

/-- `\s*[,.;:!?]+\s*$` replaced by the empty string. -/
def stripPunctEnd (l : List Char) : List Char :=
  let r1 := l.reverse.dropWhile isWsChar
  let k := runLen (fun c => c == ',' || c == '.' || c == ';' || c == ':' || c == '!' || c == '?') r1
  if k == 0 then l else ((r1.drop k).dropWhile isWsChar).reverse

/-- `\s*\*{4,}\s*$` replaced by the empty string. -/
def stripStarsEnd (l : List Char) : List Char :=
  let r1 := l.reverse.dropWhile isWsChar
  let k := runLen (fun c => c == '*') r1
  if decide (4 ≤ k) then ((r1.drop k).dropWhile isWsChar).reverse else l

/-- One body of the do-while loop: the four chained replaces. -/
def cleanStep (l : List Char) : List Char :=
  stripStarsEnd (stripPunctEnd (stripBrkEnd (stripEmoEnd l)))

/-- The do-while loop with explicit fuel: run `cleanStep`, repeat
while the string got strictly shorter. -/
def cleanLoopFuel : Nat → List Char → List Char
  | 0, l => l
  | fuel + 1, l =>
    let t := cleanStep l
    if t.length < l.length then cleanLoopFuel fuel t else t

/-- The do-while loop of the source is unbounded; every repeated
iteration strictly shortens the string, so `length + 1` body runs
always reach the exit condition (the fuel-independence is proved for
claim C10 below). -/
def cleanLoop (l : List Char) : List Char := cleanLoopFuel (l.length + 1) l

def stripMaskedTailL (l : List Char) : List Char :=
  if maskedTailTest l then trimWs (cleanLoop l) else trimWs l

def stripMaskedTail (s : String) : String := String.mk (stripMaskedTailL s.data)

/-! ## usernameFromAnyUrl (src/server.js lines 80-104) -/

def isSegChar (c : Char) : Bool := !(c == '/' || c == '?' || c == '#')

/-- The anchored match `^(?:https?:)?\/\/([^\/?#]+)\/([^\/?#]+)` with
the `i` flag, returning host and first path segment. -/
def urlParts (l : List Char) : Option (List Char × List Char) :=
  let s := if isPrefCI "https:".data l then 6 else if isPrefCI "http:".data l then 5 else 0
  match l.drop s with
  | '/' :: '/' :: rest =>
    let host := rest.takeWhile isSegChar
    if host.isEmpty then none
    else
      match rest.drop host.length with
      | '/' :: r2 =>
        let user := r2.takeWhile isSegChar
        if user.isEmpty then none else some (host, user)
      | _ => none
  | _ => none

/-- Scan for `pat` (case-insensitively) followed by a nonempty capture
`([^\/?#]+)`, as the `String.prototype.match` calls do; a position
where the literal matches but the capture is empty is skipped, as the
engine keeps scanning. -/
def scanCapture (pat : List Char) : List Char → Option (List Char)
  | [] => none
  | c :: cs =>
    if isPrefCI pat (c :: cs) then
      let u := ((c :: cs).drop pat.length).takeWhile isSegChar
      if u.isEmpty then scanCapture pat cs else some u
    else scanCapture pat cs

def usernameFromAnyUrl (u : String) : String :=
  match urlParts u.data with
  | none => ""
  | some (host0, user0) =>
    let host := host0.map Char.toLower
    let user :=
      if "youtube.com".data.isSuffixOf host then
        match scanCapture "youtube.com/@".data u.data with
        | some a => a
        | none =>
          match scanCapture "youtube.com/channel/".data u.data with
          | some ch => ch
          | none => user0
      else if "tiktok.com".data.isSuffixOf host then
        match scanCapture "tiktok.com/@".data u.data with
        | some tt => tt
        | none => user0
      else user0
    String.mk (match user with
      | '@' :: r => r
      | r => r)

/-! ## redactionTokensFromUsername (src/server.js lines 106-127) -/

/-- The global match `[A-Z]?[a-z]+|[0-9]+|[A-Z]+(?![a-z])`: camel-case
words, digit runs and all-caps runs (the negative lookahead releases a
final capital to the following camel word). -/
def camelScanF : Nat → List Char → List (List Char)
  | 0, _ => []
  | _ + 1, [] => []
  | fuel + 1, c :: cs =>
    if isUpperChar c then
      let low := cs.takeWhile isLowerChar
      if !low.isEmpty then (c :: low) :: camelScanF fuel (cs.drop low.length)
      else
        let caps := (c :: cs).takeWhile isUpperChar
        let caps2 :=
          if decide (2 ≤ caps.length) &&
             (((c :: cs).drop caps.length).head?.elim false isLowerChar) then
            caps.dropLast
          else caps
        caps2 :: camelScanF fuel (cs.drop (caps2.length - 1))
    else if isLowerChar c then
      let low := (c :: cs).takeWhile isLowerChar
      low :: camelScanF fuel (cs.drop (low.length - 1))
    else if isDigitChar c then
      let d := (c :: cs).takeWhile isDigitChar
      d :: camelScanF fuel (cs.drop (d.length - 1))
    else camelScanF fuel cs

def camelScan (l : List Char) : List (List Char) := camelScanF l.length l

/-- JavaScript `Set` insertion order: keep the first occurrence of each
element. -/
def dedupFirstF : Nat → List (List Char) → List (List Char)
  | 0, _ => []
  | _ + 1, [] => []
  | fuel + 1, x :: xs => x :: dedupFirstF fuel (xs.filter (fun y => y != x))

def dedupFirst (l : List (List Char)) : List (List Char) := dedupFirstF l.length l

/-- Stable insertion preserving descending length, modelling the stable
`Array.prototype.sort((a, b) => b.length - a.length)`. -/
def insLenDesc (x : List Char) : List (List Char) → List (List Char)
  | [] => [x]
  | y :: ys => if x.length ≤ y.length then y :: insLenDesc x ys else x :: y :: ys

def sortLenDesc (l : List (List Char)) : List (List Char) :=
  l.foldl (fun acc x => insLenDesc x acc) []

/-- The base string: lowercase the original handle via toLowerCase,
then delete every character outside the class a-z0-9 (the global
replacement by the empty string). -/
def baseOf (username : String) : List Char :=
  (username.data.map Char.toLower).filter isLowerAlnumChar

/-- The sliding substrings of the base, lengths `maxLen` down to 4 with
`maxLen = min 8 (length base)`, in the loop order of the source. -/
def subsOf (username : String) : List (List Char) :=
  let base := baseOf username
  let maxLen := min 8 base.length
  (List.range (maxLen + 1 - 4)).flatMap (fun j =>
    let L := maxLen - j
    (List.range (base.length + 1 - L)).map (fun i => (base.drop i).take L))

/-- The camel-case and number segments of the original handle, length
at least 4, lowercased. -/
def partsOf (username : String) : List (List Char) :=
  ((camelScan username.data).map (fun p => p.map Char.toLower)).filter
    (fun p => decide (4 ≤ p.length))

def redactionTokensFromUsername (username : String) : List String :=
  let base := baseOf username
  if base.isEmpty then []
  else
    (sortLenDesc (dedupFirst (base :: (subsOf username ++ partsOf username)))).map
      String.mk

/-! ## redactBylineSystem (src/server.js lines 129-149)

The `escRe` escaping of the source is the identity on these tokens
(they are purely alphanumeric), so the alternation is a literal
first-match-wins scan over the descending-length token list. -/

def mToks (toks : List (List Char)) (l : List Char) : Option Nat :=
  toks.findSome? (fun t => if !t.isEmpty && isPrefCI t l then some t.length else none)

def maskEmails (l : List Char) : List Char := replAll mEmail "****".data l

def maskUrls (l : List Char) : List Char := replAllB mUrl "****".data none l

def maskToksL (toks : List (List Char)) (l : List Char) : List Char :=
  replAll (mToks toks) "****".data l

def redactBylineSystem (text sourceUrl : String) : String :=
  let o1 := maskEmails text.data
  let o2 := maskUrls o1
  let toks := (redactionTokensFromUsername (usernameFromAnyUrl sourceUrl)).map String.data
  let o3 := if toks.isEmpty then o2 else maskToksL toks o2
  String.mk (collapseTrim o3)

/-! ## unwrapJina, stripLinksAndJunk, dedupeHead, clamp200,
dedupeSentences (src/server.js lines 151-212) -/

def normNl (l : List Char) : List Char := replAll mCrLf ['\n'] l

def unwrapJina (md : String) : String :=
  let t := normNl md.data
  match idxOfSub "markdown content:".data (t.map Char.toLower) with
  | some i => String.mk (t.drop (i + 17))
  | none => String.mk t

def stripLinksAndJunk (s : String) : String :=
  let l1 := replAll mMore [' '] s.data
  let l2 := replAll (mMdLink 0) "****".data l1
  let l3 := replAllB mUrlNoParen "****".data none l2
  let l4 := replAll mBrkChar [' '] l3
  let l5 := replAllB mAndMore [' '] none l4
  let l6 := replAll mHwsNl ['\n'] l5
  let l7 := replAll mNl3 ['\n', '\n'] l6
  String.mk (collapseTrim l7)

/-- The countdown loop of `dedupeHead`: `n` from 40 down to 20, return
on the first splice. -/
def dedupeHeadGo (txt : List Char) : Nat → List Char
  | 0 => txt
  | n + 1 =>
    if n + 1 < 20 then txt
    else
      let a := txt.take (n + 1)
      let b := (txt.drop (n + 1)).take (n + 1)
      if !a.isEmpty && !b.isEmpty && a.isPrefixOf b then
        trimWs (a ++ txt.drop (2 * (n + 1)))
      else dedupeHeadGo txt n

def dedupeHeadL (l : List Char) : List Char :=
  let txt := trimWs l
  if txt.length < 30 then txt else dedupeHeadGo txt 40

def dedupeHead (s : String) : String := String.mk (dedupeHeadL s.data)

/-- The single anchored replace `\s+\S*$` of `clamp200`: drop the last
whitespace run together with the trailing word, when there is one. -/
def dropLastWordRun (l : List Char) : List Char :=
  let r1 := l.reverse.dropWhile (fun c => !isWsChar c)
  if r1.isEmpty then l else (r1.dropWhile isWsChar).reverse

def clamp200L (l : List Char) : List Char :=
  let t := trimWs l
  if t.length ≤ 200 then t
  else dropLastWordRun (t.take 200) ++ ['…']

def clamp200 (s : String) : String := String.mk (clamp200L s.data)

/-- The capturing sentence separator: a sentence-ending punctuation
character, an optional double-quote or apostrophe, then one or more
whitespace characters.  The optional quote cannot rescue a failed
whitespace run by backtracking since quotes are not whitespace. -/
def mSentSep (l : List Char) : Option Nat :=
  match l with
  | [] => none
  | c :: rest =>
    if !(c == '.' || c == '!' || c == '?') then none
    else
      let q : Nat :=
        match rest.head? with
        | some c2 => if c2 == '"' || c2 == '\'' then 1 else 0
        | none => 0
      let w := runLen isWsChar (rest.drop q)
      if w == 0 then none else some (1 + q + w)

/-- Split on the capturing sentence separator: the parts interleaved
with the captured separators, exactly as the JavaScript array. -/
def splitSentF : Nat → List Char → List Char → List (List Char)
  | 0, acc, _ => [acc.reverse]
  | _ + 1, acc, [] => [acc.reverse]
  | fuel + 1, acc, c :: cs =>
    match mSentSep (c :: cs) with
    | some k => acc.reverse :: (c :: cs).take k :: splitSentF fuel [] (cs.drop (k - 1))
    | none => splitSentF fuel (c :: acc) cs

def splitSent (l : List Char) : List (List Char) := splitSentF l.length [] l

/-- The `i += 2` walk over the parts array: pairs of sentence and
separator, the final missing separator read as the empty string. -/
def sentPairs : List (List Char) → List (List Char × List Char)
  | [] => []
  | [p] => [(p, [])]
  | p :: q :: rest => (p, q) :: sentPairs rest

def dedupeSentencesL (l : List Char) : List Char :=
  let parts := splitSent l
  if parts.length ≤ 1 then trimWs l
  else
    let out := (sentPairs parts).foldl
      (fun (out : List (List Char × List Char)) pq =>
        let s := trimWs pq.1
        if s.isEmpty then out
        else
          match out.getLast? with
          | some prev =>
            if prev.1.map Char.toLower == s.map Char.toLower then out
            else out ++ [(s, pq.2)]
          | none => out ++ [(s, pq.2)]) []
    trimWs (out.foldr (fun x acc => x.1 ++ x.2 ++ acc) [])

def dedupeSentences (s : String) : String := String.mk (dedupeSentencesL s.data)

/-! ## extractYouTubeMainByline (src/server.js lines 217-340) -/

/-- `^\s*-{3,}\s*$` on the raw line (`isHr`). -/
def isHrL (l : List Char) : Bool :=
  let t := l.dropWhile isWsChar
  let d := runLen (fun c => c == '-') t
  decide (3 ≤ d) && ((t.drop d).dropWhile isWsChar).isEmpty

/-- `\b` after a consumed literal: the next character is absent or not
a word character. -/
def wordBoundAfter (l : List Char) : Bool :=
  match l.head? with
  | none => true
  | some c => !isWordChar c

/-- A case-insensitive literal followed by `\b`. -/
def matchWordB (word : List Char) (l : List Char) : Bool :=
  isPrefCI word l && wordBoundAfter (l.drop word.length)

/-- `startsWithWord`: the dynamic anchored regex
`^\s*(?:#{0,6}\s*|-{3,}\s*)?WORD\b` (case-insensitive) tested on the
trimmed line.  When a hash or dash run is present but the optional
group cannot consume it, no alternative can place the (alphabetic) word
on the run, so the test fails. -/
def startsWithWordL (word : List Char) (s : List Char) : Bool :=
  let t := (trimWs s).dropWhile isWsChar
  let hashes := runLen (fun c => c == '#') t
  let dashes := runLen (fun c => c == '-') t
  if 1 ≤ hashes then
    decide (hashes ≤ 6) && matchWordB word ((t.drop hashes).dropWhile isWsChar)
  else if 3 ≤ dashes then
    matchWordB word ((t.drop dashes).dropWhile isWsChar)
  else
    matchWordB word t

/-- `^\s*#{2,6}\s+\S` on the trimmed line (`isAnyHeading`). -/
def isAnyHeadingL (s : List Char) : Bool :=
  let t := (trimWs s).dropWhile isWsChar
  let h := runLen (fun c => c == '#') t
  decide (2 ≤ h) && decide (h ≤ 6) &&
    (let w := runLen isWsChar (t.drop h)
     decide (1 ≤ w) && !((t.drop (h + w)).isEmpty))

def sectionWords : List String :=
  ["Links", "Stats", "Details", "Business", "Contact", "Email", "Location",
   "Country", "Shop", "Store", "Join", "Membership", "Creator"]

def isSectionBoundaryL (s : List Char) : Bool :=
  sectionWords.any (fun w => startsWithWordL w.data s)

/-- `^\s*(more info|sign in|log in)\b` on the trimmed line
(`isStopLine`). -/
def isStopLineL (s : List Char) : Bool :=
  let t := (trimWs s).dropWhile isWsChar
  matchWordB "more info".data t || matchWordB "sign in".data t || matchWordB "log in".data t

/-- One `[A-Z][a-z]+` word: the consumed length. -/
def capsWordLen (l : List Char) : Option Nat :=
  match l with
  | c :: rest =>
    if isUpperChar c then
      let low := runLen isLowerChar rest
      if low == 0 then none else some (1 + low)
    else none
  | [] => none

/-- `(?:\s+[A-Z][a-z]+)*$` after the first word. -/
def capsWordsTailF : Nat → List Char → Bool
  | 0, l => l.isEmpty
  | _ + 1, [] => true
  | fuel + 1, c :: rest =>
    if !isWsChar c then false
    else
      let w := runLen isWsChar (c :: rest)
      match capsWordLen ((c :: rest).drop w) with
      | some k => capsWordsTailF fuel (rest.drop (w - 1 + k))
      | none => false

def capsWordsTail (l : List Char) : Bool := capsWordsTailF l.length l

/-- `^[A-Z][a-z]+(?:\s+[A-Z][a-z]+)*$`. -/
def isCapsWordsLine (t : List Char) : Bool :=
  match capsWordLen t with
  | some k => capsWordsTail (t.drop k)
  | none => false

/-- `^\d[\d.,]*\s*[kKmM]?\s*(subscribers|views|videos)\b` with the `i`
flag.  The optional unit character never starts one of the count words,
so taking it greedily loses no match. -/
def isSubsCountLine (t : List Char) : Bool :=
  match t with
  | c :: rest =>
    if !isDigitChar c then false
    else
      let dr := runLen (fun d => isDigitChar d || d == '.' || d == ',') rest
      let r2 := rest.drop dr
      let w1 := runLen isWsChar r2
      let r3 := r2.drop w1
      let km : Nat :=
        match r3.head? with
        | some k => if k == 'k' || k == 'K' || k == 'm' || k == 'M' then 1 else 0
        | none => 0
      let r4 := r3.drop km
      let w2 := runLen isWsChar r4
      let r5 := r4.drop w2
      matchWordB "subscribers".data r5 || matchWordB "views".data r5 ||
        matchWordB "videos".data r5
  | [] => false

def countryWords : List String :=
  ["United States", "United Kingdom", "Canada", "Australia", "India"]

/-- `^\s*(United States|...)\s*$` with the `i` flag. -/
def isCountryLine (t : List Char) : Bool :=
  countryWords.any (fun w =>
    let t1 := t.dropWhile isWsChar
    isPrefCI w.data t1 && ((t1.drop w.data.length).dropWhile isWsChar).isEmpty)

/-- `isMetaLine`, with the source order of the checks (note that a line
of capitalized words returns `false` before the country check runs). -/
def isMetaLineL (s : List Char) : Bool :=
  let t := trimWs s
  if t.isEmpty then false
  else if matchWordB "share channel".data t then true
  else if matchWordB "joined".data t then true
  else if isCapsWordsLine t then false
  else if isSubsCountLine t then true
  else if isCountryLine t then true
  else false

/-- `^\s*\[[^\]]*\]\s*$` on the raw line (`isBracketOnly`). -/
def isBracketOnlyL (s : List Char) : Bool :=
  let t1 := s.dropWhile isWsChar
  match t1 with
  | '[' :: rest =>
    let a := rest.takeWhile (fun c => c != ']')
    match rest.drop a.length with
    | ']' :: r2 => (r2.dropWhile isWsChar).isEmpty
    | _ => false
  | _ => false

/-- The start branch `^\s*-{3,}\s*Description\b` on the raw line,
returning the trimmed text after the strip of
`^\s*-{3,}\s*Description\b[:\s-]*`. -/
def descAfterDash (cur : List Char) : Option (List Char) :=
  let t1 := cur.dropWhile isWsChar
  let d := runLen (fun c => c == '-') t1
  if d < 3 then none
  else
    let t2 := (t1.drop d).dropWhile isWsChar
    if matchWordB "description".data t2 then
      some (trimWs ((t2.drop 11).dropWhile (fun c => c == ':' || isWsChar c || c == '-')))
    else none

/-- The strip `^\s*(?:#{0,6}\s*)?Description\b[:\s-]*` applied by the
heading branches; when the replace pattern does not match (for example
on a dash-prefixed line that `startsWithWord` accepted), the line is
returned whole, trimmed — replicating the source. -/
def descHashStrip (cur : List Char) : List Char :=
  let t1 := cur.dropWhile isWsChar
  let h := runLen (fun c => c == '#') t1
  let cand := if h == 0 then some t1
    else if h ≤ 6 then some ((t1.drop h).dropWhile isWsChar)
    else none
  match cand with
  | some t2 =>
    if matchWordB "description".data t2 then
      trimWs ((t2.drop 11).dropWhile (fun c => c == ':' || isWsChar c || c == '-'))
    else trimWs cur
  | none => trimWs cur

/-- The find-start loop (source lines 259-283): returns the start line
index and the inline trailing text. -/
def ytFindStartAux : Nat → List (List Char) → Option (Nat × List Char)
  | _, [] => none
  | i, cur :: rest =>
    match descAfterDash cur with
    | some inl => some (i + 1, inl)
    | none =>
      if isHrL cur &&
         (match rest with
          | nxt :: _ => startsWithWordL "description".data nxt
          | [] => false) then
        match rest with
        | nxt :: _ => some (i + 2, descHashStrip nxt)
        | [] => none
      else if startsWithWordL "description".data cur then some (i + 1, descHashStrip cur)
      else ytFindStartAux (i + 1) rest

def ytIsBoundary (cur : List Char) : Bool :=
  isSectionBoundaryL cur || isStopLineL cur || isAnyHeadingL cur || isMetaLineL cur ||
    startsWithWordL "links".data cur ||
    (let t1 := cur.dropWhile isWsChar
     let d := runLen (fun c => c == '-') t1
     decide (3 ≤ d) && matchWordB "links".data ((t1.drop d).dropWhile isWsChar))

/-- `lines.slice(startLine, endLine)` where `endLine` is the first
boundary line. -/
def takeUntilBoundary : List (List Char) → List (List Char)
  | [] => []
  | l :: ls => if ytIsBoundary l then [] else l :: takeUntilBoundary ls

/-- The block body of the video-host extractor: the joined, filtered
description block, before the alphanumeric check (source lines
218-314). -/
def ytBlockBody (markdown : String) : Option (List Char) :=
  let mdl := normNl (unwrapJina markdown).data
  let lines := splitNl mdl
  match ytFindStartAux 0 lines with
  | none => none
  | some (startLine, inlineAfter) =>
    let bl := ((((((takeUntilBoundary (lines.drop startLine)).map trimWs).filter
      (fun s => !s.isEmpty)).filter (fun s => !isStopLineL s)).filter
      (fun s => !isMetaLineL s)).filter (fun s => !isBracketOnlyL s)).filter
      (fun s => !isHrL s)
    let bl2 := if inlineAfter.isEmpty then bl else inlineAfter :: bl
    some (collapseTrim (joinSp bl2))

def hasAlnumL (l : List Char) : Bool := l.any isAlnumChar

/-- The belt-and-suspenders artifact strip (source lines 320-328). -/
def ytStripArtifacts (body : List Char) : List Char :=
  let b1 := replAll mMore [' '] body
  let b2 := replAll (mMdLink 1) [' '] b1
  let b3 := replAll mParenUrl [' '] b2
  let b4 := replAllB mUrl [' '] none b3
  let b5 := replAll mEmptyBrk [' '] b4
  let b6 := replAll mHwsNl ['\n'] b5
  collapseTrim b6

/-- One iteration `\s+\1` of the leading-phrase regex: greedy
whitespace with backtracking over its length, then a case-insensitive
copy of the captured phrase. -/
def lpTryK (p : List Char) (l : List Char) : Nat → Option (List Char)
  | 0 => none
  | k + 1 =>
    if isPrefCI p (l.drop (k + 1)) then some ((l.drop (k + 1)).drop p.length)
    else lpTryK p l k

def lpEat (p : List Char) (l : List Char) : Option (List Char) :=
  let w := runLen isWsChar l
  if w == 0 then none else lpTryK p l w

/-- The greedy `(?:\s+\1)+` repetition (nothing follows it in the
pattern, so it simply runs until an iteration fails). -/
def lpLoop (p : List Char) : Nat → List Char → List Char
  | 0, l => l
  | fuel + 1, l =>
    match lpEat p l with
    | some rest => lpLoop p fuel rest
    | none => l

/-- The lazy `.{8,160}?` scan: phrase lengths from 8 upwards; the dot
does not match line terminators. -/
def lpFind (l : List Char) : Nat → Nat → Option (List Char)
  | _, 0 => none
  | L, fuel + 1 =>
    if decide (160 < L) || decide (l.length ≤ L) then none
    else
      let p := l.take L
      if p.all (fun c => !(c == '\n' || c == '\r')) then
        match lpEat p (l.drop L) with
        | some r1 => some (p ++ lpLoop p r1.length r1)
        | none => lpFind l (L + 1) fuel
      else lpFind l (L + 1) fuel

/-- Collapse a repeated leading phrase: replace an anchored leading
group of 8 to 160 characters (lazy), followed by one or more
whitespace-separated case-insensitive repeats of that same group, by
the single group. -/
def collapseLeadingL (l : List Char) : List Char :=
  match lpFind l 8 153 with
  | some r => r
  | none => l

def extractYouTubeMainByline (markdown sourceUrl : String) : String :=
  match ytBlockBody markdown with
  | none => ""
  | some body =>
    if !hasAlnumL body then ""
    else
      let b1 := ytStripArtifacts body
      let b2 := (redactBylineSystem (String.mk b1) sourceUrl).data
      let b3 := collapseLeadingL b2
      let b4 := dedupeSentencesL b3
      let b5 := dedupeHeadL b4
      let b6 := stripMaskedTailL b5
      String.mk (clamp200L b6)

/-! ## extractTwitchAboutByline (src/server.js lines 343-393) -/

/-- A line matching `^\s*###\s+About\b[^\n]*$` (exactly three hash
marks, then whitespace, then the word). -/
def twitchAboutLineTest (line : List Char) : Bool :=
  let t1 := line.dropWhile isWsChar
  match t1 with
  | '#' :: '#' :: '#' :: r =>
    match r with
    | '#' :: _ => false
    | _ =>
      let w := runLen isWsChar r
      decide (1 ≤ w) && matchWordB "about".data (r.drop w)
  | _ => false

/-- `md.indexOf(aboutMatch[0]) + aboutMatch[0].length`, with the
matched text being the whole first line satisfying the About pattern
(the `indexOf` replays the source quirk of finding the first textual
occurrence of that line). -/
def twitchStartAt (mdl : List Char) : Nat :=
  match (splitNl mdl).find? twitchAboutLineTest with
  | some line =>
    match idxOfSub line mdl with
    | some i => i + line.length
    | none => 0
  | none => 0

/-- The follower pattern after the `(^|\n)` alternative:
`\s*\d[\d.,]*\s*[kKmM]?\s*followers\b[^\S\r\n]*\n+`, returning the
consumed length. -/
def followersAt (l : List Char) : Option Nat :=
  let w0 := runLen isWsChar l
  match (l.drop w0).head? with
  | some c =>
    if !isDigitChar c then none
    else
      let r1 := l.drop (w0 + 1)
      let dr := runLen (fun d => isDigitChar d || d == '.' || d == ',') r1
      let r2 := r1.drop dr
      let w1 := runLen isWsChar r2
      let r3 := r2.drop w1
      let km : Nat :=
        match r3.head? with
        | some k => if k == 'k' || k == 'K' || k == 'm' || k == 'M' then 1 else 0
        | none => 0
      let r4 := r3.drop km
      let w2 := runLen isWsChar r4
      let r5 := r4.drop w2
      if !matchWordB "followers".data r5 then none
      else
        let r6 := r5.drop 9
        let hw := runLen isHwsChar r6
        let r7 := r6.drop hw
        let nl := runLen (fun c2 => c2 == '\n') r7
        if nl == 0 then none
        else some (w0 + 1 + dr + w1 + km + w2 + 9 + hw + nl)
  | none => none

/-- `followersRe.exec(tail)`: the leftmost match with its index — at
index 0 through the `^` alternative, and at every newline through the
`\n` alternative (which is part of the match). -/
def followersScanAux : Nat → List Char → Option (Nat × Nat)
  | _, [] => none
  | i, c :: cs =>
    if c == '\n' then
      match followersAt cs with
      | some k => some (i, 1 + k)
      | none => followersScanAux (i + 1) cs
    else followersScanAux (i + 1) cs

def followersScan (l : List Char) : Option (Nat × Nat) :=
  match followersAt l with
  | some k => some (0, k)
  | none => followersScanAux 0 l

/-- The fallback cleanup of the streaming-host extractor (source lines
356-360). -/
def twitchCleanFallback (tl : List Char) : List Char :=
  let t1 := replAll mStarDot [' '] tl
  let t2 := replAll (mMdLink 1) [' '] t1
  collapseTrim t2

/-- `after.search(/\n{2,}###\s+/)` at the head: only the full newline
run can be followed by the hashes. -/
def nlHeadingAt (l : List Char) : Bool :=
  let k := runLen (fun c => c == '\n') l
  decide (2 ≤ k) &&
    (match l.drop k with
     | '#' :: '#' :: '#' :: r => decide (1 ≤ runLen isWsChar r)
     | _ => false)

def nlHeadingIdxAux : Nat → List Char → Option Nat
  | _, [] => none
  | i, c :: cs =>
    if nlHeadingAt (c :: cs) then some i else nlHeadingIdxAux (i + 1) cs

/-- `^(?:[-–•·]+|\*+)$`: a purely decorative line. -/
def isDecorLine (s : List Char) : Bool :=
  (!s.isEmpty && s.all (fun c => c == '-' || c == '–' || c == '•' || c == '·')) ||
    (!s.isEmpty && s.all (fun c => c == '*'))

/-- `split(/\n+/)`. -/
def splitNlRunsF : Nat → List Char → List Char → List (List Char)
  | 0, acc, _ => [acc.reverse]
  | _ + 1, acc, [] => [acc.reverse]
  | fuel + 1, acc, c :: cs =>
    if c == '\n' then
      let k := runLen (fun c2 => c2 == '\n') (c :: cs)
      acc.reverse :: splitNlRunsF fuel [] (cs.drop (k - 1))
    else splitNlRunsF fuel (c :: acc) cs

def splitNlRuns (l : List Char) : List (List Char) := splitNlRunsF l.length [] l

/-- The block path of the streaming-host extractor (source lines
366-385): slice to the first panel image or level-3 heading, clean, and
take the first meaningful line. -/
def twitchBlockByline (after : List Char) : List Char :=
  let e1 := after.length
  let e2 := match idxOfSub "[![".data after with
    | some i => min e1 i
    | none => e1
  let e3 := match nlHeadingIdxAux 0 after with
    | some i => min e2 i
    | none => e2
  let b1 := replAll mStarDot [' '] (after.take e3)
  let b2 := replAll (mMdLink 1) [' '] b1
  let b3 := replAll mParenUrl [' '] b2
  let b4 := replAllB mUrl [' '] none b3
  let b5 := replAll mHwsNl ['\n'] b4
  let lns := ((splitNlRuns (trimWs b5)).map trimWs).filter (fun s => !s.isEmpty)
  match lns.find? (fun s => !isDecorLine s) with
  | some b => b
  | none => []

def extractTwitchAboutByline (markdown sourceUrl : String) : String :=
  let mdl := (unwrapJina markdown).data
  let tl := mdl.drop (twitchStartAt mdl)
  match followersScan tl with
  | none =>
    String.mk (clamp200L (redactBylineSystem (String.mk (twitchCleanFallback tl)) sourceUrl).data)
  | some (idx, len) =>
    let after := tl.drop (idx + len)
    let b1 := twitchBlockByline after
    let b2 := (redactBylineSystem (String.mk b1) sourceUrl).data
    let b3 := dedupeSentencesL b2
    let b4 := dedupeHeadL b3
    let b5 := stripMaskedTailL b4
    String.mk (clamp200L b5)

/-! ## extractGenericByline (src/server.js lines 395-421) -/

def navWords : List String :=
  ["home", "videos", "shorts", "live", "playlists", "community", "channels",
   "store", "members", "about", "description", "search", "subscriptions",
   "popular", "stats", "link", "links", "detail", "details", "location",
   "joined", "business", "email", "contact", "creator", "more"]

/-- The anchored whole-line NAV test (case-insensitive exact match). -/
def isNavLine (s : List Char) : Bool :=
  navWords.any (fun w => s.map Char.toLower == w.data)

def badWordList : List String :=
  ["cookie", "cookies", "consent", "privacy", "policy", "analytics",
   "partners", "marketing", "targeting"]

/-- One position of the BAD search `\b(cookie|...|third[- ]party|...)\b`. -/
def badWordAt (pv : Option Char) (l : List Char) : Bool :=
  (match pv with
   | none => true
   | some c => !isWordChar c) &&
  (badWordList.any (fun w => matchWordB w.data l) ||
   matchWordB "third-party".data l || matchWordB "third party".data l)

def hasBadWord : Option Char → List Char → Bool
  | _, [] => false
  | pv, c :: cs => badWordAt pv (c :: cs) || hasBadWord (some c) cs

def persWordList : List String :=
  ["i", "my", "we", "channel", "subscribe", "video", "videos", "stream",
   "streaming", "gaming", "variety"]

/-- One position of the personable-keyword search. -/
def persWordAt (pv : Option Char) (l : List Char) : Bool :=
  (match pv with
   | none => true
   | some c => !isWordChar c) &&
  persWordList.any (fun w => matchWordB w.data l)

def hasPersWord : Option Char → List Char → Bool
  | _, [] => false
  | pv, c :: cs => persWordAt pv (c :: cs) || hasPersWord (some c) cs

/-- Ends with sentence punctuation, optionally followed by a
double-quote or apostrophe, at end of string. -/
def endsSentencePunct (s : List Char) : Bool :=
  match s.reverse with
  | c :: rest =>
    (c == '.' || c == '!' || c == '?') ||
    ((c == '"' || c == '\'') &&
      (match rest.head? with
       | some d => d == '.' || d == '!' || d == '?'
       | none => false))
  | [] => false

/-- `split(/\n{2,}/)`: paragraphs separated by runs of two or more
newlines. -/
def splitParaF : Nat → List Char → List Char → List (List Char)
  | 0, acc, _ => [acc.reverse]
  | _ + 1, acc, [] => [acc.reverse]
  | fuel + 1, acc, c :: cs =>
    if c == '\n' && decide (2 ≤ runLen (fun c2 => c2 == '\n') (c :: cs)) then
      let k := runLen (fun c2 => c2 == '\n') (c :: cs)
      acc.reverse :: splitParaF fuel [] (cs.drop (k - 1))
    else splitParaF fuel (c :: acc) cs

def splitPara (l : List Char) : List (List Char) := splitParaF l.length [] l

def genScore (p : List Char) : Int :=
  (if decide (40 ≤ p.length) && decide (p.length ≤ 400) then (60 : Int) else 0) +
  (if endsSentencePunct p then 10 else 0) +
  (if hasPersWord none p then 20 else 0)

def extractGenericByline (markdown : String) : String :=
  let txt := (unwrapJina markdown).data
  let paras := (((splitPara txt).map (fun p =>
      let lns := (((splitNl p).map trimWs).filter (fun s => !s.isEmpty)).filter
        (fun s => !isNavLine s)
      (stripLinksAndJunk (String.mk (joinSp lns))).data)).filter
    (fun p => !p.isEmpty)).filter (fun p => !hasBadWord none p)
  let best := (paras.foldl
    (fun (acc : List Char × Int) p =>
      if genScore p > acc.2 then (p, genScore p) else acc) ([], -1)).1
  let b1 := (redactBylineSystem (String.mk best) "").data
  let b2 := dedupeSentencesL b1
  let b3 := dedupeHeadL b2
  let b4 := stripMaskedTailL b3
  String.mk (clamp200L b4)

/-! ## extractBylineFor (src/server.js lines 423-428) -/

def extractBylineFor (url markdown : String) : String :=
  let u := url.data.map Char.toLower
  if containsCS "youtube.com".data u then extractYouTubeMainByline markdown url
  else if containsCS "twitch.tv".data u then extractTwitchAboutByline markdown url
  else extractGenericByline markdown

/-! ## Helper lemmas -/

theorem length_mk (l : List Char) : (String.mk l).length = l.length := rfl

theorem data_mk (l : List Char) : (String.mk l).data = l := rfl

theorem trimR_length_le : ∀ l : List Char, (trimR l).length ≤ l.length := by
  intro l
  induction l with
  | nil => simp [trimR]
  | cons c cs ih =>
    simp only [trimR]
    split
    · split <;> simp
    next d ds heq =>
      rw [heq] at ih
      simp only [List.length_cons] at ih ⊢
      omega

theorem trimWs_length_le (l : List Char) : (trimWs l).length ≤ l.length :=
  le_trans (trimR_length_le _) ((List.dropWhile_sublist _).length_le)

theorem dropLastWordRun_length_le (l : List Char) : (dropLastWordRun l).length ≤ l.length := by
  simp only [dropLastWordRun]
  split
  · exact le_rfl
  · calc ((l.reverse.dropWhile (fun c => !isWsChar c)).dropWhile isWsChar).reverse.length
        ≤ (l.reverse.dropWhile (fun c => !isWsChar c)).length := by
          rw [List.length_reverse]
          exact (List.dropWhile_sublist _).length_le
      _ ≤ l.reverse.length := (List.dropWhile_sublist _).length_le
      _ = l.length := List.length_reverse _

theorem clamp200L_length_le (l : List Char) : (clamp200L l).length ≤ 201 := by
  simp only [clamp200L]
  split
  next h => omega
  next h =>
    simp only [List.length_append, List.length_cons, List.length_nil]
    have h1 := dropLastWordRun_length_le ((trimWs l).take 200)
    have h2 : ((trimWs l).take 200).length ≤ 200 := by
      simp [List.length_take]
    omega

theorem extractYouTubeMainByline_length_le (md url : String) :
    (extractYouTubeMainByline md url).length ≤ 201 := by
  simp only [extractYouTubeMainByline]
  split
  · simp [String.length]
  · split
    · simp [String.length]
    · rw [length_mk]
      exact clamp200L_length_le _

theorem extractTwitchAboutByline_length_le (md url : String) :
    (extractTwitchAboutByline md url).length ≤ 201 := by
  simp only [extractTwitchAboutByline]
  split
  · rw [length_mk]; exact clamp200L_length_le _
  · rw [length_mk]; exact clamp200L_length_le _

theorem extractGenericByline_length_le (md : String) :
    (extractGenericByline md).length ≤ 201 := by
  simp only [extractGenericByline]
  rw [length_mk]
  exact clamp200L_length_le _

/-! ## Claim C2: length invariant -/

def c2LongInput : String := String.mk (List.replicate 205 'a')

set_option maxRecDepth 20000 in
/-- C2 (counterexample): the pipeline output can have 201 characters —
for a long input with no whitespace in the 200-character truncation
prefix, the clamp appends the ellipsis to a full 200-character prefix —
so "len(b) == 0 or len(b) <= 200" fails. -/
theorem c2_length_claim_counterexample :
    ¬ ((extractBylineFor "https://twitch.tv/zzzz" c2LongInput).length = 0 ∨
       (extractBylineFor "https://twitch.tv/zzzz" c2LongInput).length ≤ 200) := by
  have h : (extractBylineFor "https://twitch.tv/zzzz" c2LongInput).length = 201 := by rfl
  rw [h]
  omega

/-- C2 (amended): for every source URL and raw markdown, the byline
produced by the pipeline satisfies len(b) == 0 or len(b) <= 201: every
extractor path either returns the empty string or ends in the clamp,
which yields at most 200 characters plus one ellipsis character (the
200 bound itself can be exceeded by exactly one when the truncation
prefix contains no whitespace boundary). -/
theorem c2_pipeline_length_le (url md : String) :
    (extractBylineFor url md).length ≤ 201 := by
  simp only [extractBylineFor]
  split
  · exact extractYouTubeMainByline_length_le _ _
  · split
    · exact extractTwitchAboutByline_length_le _ _
    · exact extractGenericByline_length_le _

/-! ## Claim C10: termination of the masked-tail cleanup loop -/

theorem cleanLoopFuel_stable (n : Nat) (l : List Char) (h : l.length < n) :
    cleanLoopFuel n l = cleanLoopFuel (l.length + 1) l := by
  induction n using Nat.strong_induction_on generalizing l with
  | _ n ih =>
    match n, h with
    | n + 1, h =>
      by_cases hc : (cleanStep l).length < l.length
      · have e1 : cleanLoopFuel (n + 1) l = cleanLoopFuel n (cleanStep l) := by
          rw [cleanLoopFuel]
          simp only [hc, if_true]
        have e2 : cleanLoopFuel (l.length + 1) l = cleanLoopFuel l.length (cleanStep l) := by
          rw [cleanLoopFuel]
          simp only [hc, if_true]
        rw [e1, e2]
        by_cases hn : n = 0
        · omega
        · have i1 : cleanLoopFuel n (cleanStep l) =
              cleanLoopFuel ((cleanStep l).length + 1) (cleanStep l) :=
            ih n (by omega) _ (by omega)
          have i2 : cleanLoopFuel l.length (cleanStep l) =
              cleanLoopFuel ((cleanStep l).length + 1) (cleanStep l) :=
            ih l.length (by omega) _ (by omega)
          rw [i1, i2]
      · rw [cleanLoopFuel, cleanLoopFuel]
        simp only [hc, if_false]

/-- C10: the masked-tail cleanup terminates with its iteration count
bounded by the length of the input: every iteration that does not end
the loop strictly shortens the string, so running the loop body with
any fuel beyond length + 1 computes the same result, and
`stripMaskedTail` equals the bounded-fuel computation. -/
theorem c10_stripMaskedTail_loop_bound (s : String) (n : Nat) (h : s.data.length < n) :
    stripMaskedTail s =
      String.mk (if maskedTailTest s.data then trimWs (cleanLoopFuel n s.data)
                 else trimWs s.data) := by
  simp only [stripMaskedTail, stripMaskedTailL, cleanLoop]
  rw [cleanLoopFuel_stable n s.data h]

/-- C10 (witness): the bound instantiated on a concrete masked tail. -/
theorem c10_witness :
    stripMaskedTail "hi ****;)" = "hi" ∧
      stripMaskedTail "hi ****;)" =
        String.mk (if maskedTailTest "hi ****;)".data
                   then trimWs (cleanLoopFuel 100 "hi ****;)".data)
                   else trimWs "hi ****;)".data) :=
  ⟨by rfl, c10_stripMaskedTail_loop_bound "hi ****;)" 100 (by decide)⟩

/-! ## Character facts -/

theorem ofNatAux_toNat (n : Nat) (h : n.isValidChar) : (Char.ofNatAux n h).toNat = n := by
  simp [Char.ofNatAux, Char.toNat, UInt32.toNat]

theorem ofNat_toNat (n : Nat) (h : n.isValidChar) : (Char.ofNat n).toNat = n := by
  rw [Char.ofNat]
  simp only [h, dif_pos]
  exact ofNatAux_toNat n h

theorem char_le_iff (a b : Char) : (a ≤ b) ↔ (a.toNat ≤ b.toNat) := Iff.rfl

theorem char_toNat_inj (a b : Char) (h : a.toNat = b.toNat) : a = b := by
  apply Char.ext
  exact UInt32.toNat.inj h

theorem toLower_toNat_of_upper (c : Char) (h1 : 65 ≤ c.toNat) (h2 : c.toNat ≤ 90) :
    (Char.toLower c).toNat = c.toNat + 32 := by
  unfold Char.toLower
  rw [if_pos ⟨h1, h2⟩]
  exact ofNat_toNat _ (Or.inl (by omega))

theorem toLower_of_not_upper (c : Char) (h : ¬(65 ≤ c.toNat ∧ c.toNat ≤ 90)) :
    Char.toLower c = c := by
  unfold Char.toLower
  rw [if_neg h]

theorem isLowerAlnum_toNat (c : Char) (h : isLowerAlnumChar c = true) :
    (97 ≤ c.toNat ∧ c.toNat ≤ 122) ∨ (48 ≤ c.toNat ∧ c.toNat ≤ 57) := by
  simp only [isLowerAlnumChar, isLowerChar, isDigitChar, Bool.or_eq_true,
    Bool.and_eq_true, decide_eq_true_eq, char_le_iff] at h
  have ha : ('a' : Char).toNat = 97 := by decide
  have hz : ('z' : Char).toNat = 122 := by decide
  have h0 : ('0' : Char).toNat = 48 := by decide
  have h9 : ('9' : Char).toNat = 57 := by decide
  omega

theorem toLower_lowerAlnum_self (c : Char) (h : isLowerAlnumChar c = true) :
    Char.toLower c = c := by
  apply toLower_of_not_upper
  have := isLowerAlnum_toNat c h
  omega

theorem isAlnum_toNat (c : Char) (h : isAlnumChar c = true) :
    (65 ≤ c.toNat ∧ c.toNat ≤ 90) ∨ (97 ≤ c.toNat ∧ c.toNat ≤ 122) ∨
      (48 ≤ c.toNat ∧ c.toNat ≤ 57) := by
  simp only [isAlnumChar, isAlphaChar, isUpperChar, isLowerChar, isDigitChar,
    Bool.or_eq_true, Bool.and_eq_true, decide_eq_true_eq, char_le_iff] at h
  have hA : ('A' : Char).toNat = 65 := by decide
  have hZ : ('Z' : Char).toNat = 90 := by decide
  have ha : ('a' : Char).toNat = 97 := by decide
  have hz : ('z' : Char).toNat = 122 := by decide
  have h0 : ('0' : Char).toNat = 48 := by decide
  have h9 : ('9' : Char).toNat = 57 := by decide
  omega

theorem toNat_isLowerAlnum (c : Char)
    (h : (97 ≤ c.toNat ∧ c.toNat ≤ 122) ∨ (48 ≤ c.toNat ∧ c.toNat ≤ 57)) :
    isLowerAlnumChar c = true := by
  simp only [isLowerAlnumChar, isLowerChar, isDigitChar, Bool.or_eq_true,
    Bool.and_eq_true, decide_eq_true_eq, char_le_iff]
  have ha : ('a' : Char).toNat = 97 := by decide
  have hz : ('z' : Char).toNat = 122 := by decide
  have h0 : ('0' : Char).toNat = 48 := by decide
  have h9 : ('9' : Char).toNat = 57 := by decide
  omega

/-- Lowercasing an alphanumeric character gives a lowercase
alphanumeric character. -/
theorem toLower_alnum_lowerAlnum (c : Char) (h : isAlnumChar c = true) :
    isLowerAlnumChar (Char.toLower c) = true := by
  rcases isAlnum_toNat c h with hu | hl | hd
  · apply toNat_isLowerAlnum
    rw [toLower_toNat_of_upper c hu.1 hu.2]
    omega
  · apply toNat_isLowerAlnum
    rw [toLower_of_not_upper c (by omega)]
    omega
  · apply toNat_isLowerAlnum
    rw [toLower_of_not_upper c (by omega)]
    omega

/-- A lowercase alphanumeric character never matches an asterisk
case-insensitively. -/
theorem lowerEq_star_false (c : Char) (h : isLowerAlnumChar c = true) :
    lowerEq c '*' = false := by
  have hx := isLowerAlnum_toNat c h
  rw [lowerEq, toLower_lowerAlnum_self c h]
  have hs : Char.toLower '*' = '*' := by decide
  rw [hs]
  simp only [beq_eq_false_iff_ne, ne_eq]
  intro he
  have : c.toNat = 42 := by rw [he]; decide
  omega

/-- A lowercase alphanumeric character never matches a space
case-insensitively. -/
theorem lowerEq_space_false (c : Char) (h : isLowerAlnumChar c = true) :
    lowerEq c ' ' = false := by
  have hx := isLowerAlnum_toNat c h
  rw [lowerEq, toLower_lowerAlnum_self c h]
  have hs : Char.toLower ' ' = ' ' := by decide
  rw [hs]
  simp only [beq_eq_false_iff_ne, ne_eq]
  intro he
  have : c.toNat = 32 := by rw [he]; decide
  omega

/-! ## Membership lemmas for the token-set construction -/

theorem mem_insLenDesc (a x : List Char) (l : List (List Char)) :
    a ∈ insLenDesc x l ↔ a = x ∨ a ∈ l := by
  induction l with
  | nil => simp [insLenDesc]
  | cons y ys ih =>
    simp only [insLenDesc]
    split
    · simp only [List.mem_cons, ih]
      tauto
    · simp only [List.mem_cons]

theorem mem_foldl_ins (a : List Char) :
    ∀ (l : List (List Char)) (acc : List (List Char)),
      a ∈ l.foldl (fun acc x => insLenDesc x acc) acc ↔ a ∈ acc ∨ a ∈ l := by
  intro l
  induction l with
  | nil => simp
  | cons x xs ih =>
    intro acc
    simp only [List.foldl_cons, ih, mem_insLenDesc, List.mem_cons]
    tauto

theorem mem_sortLenDesc (a : List Char) (l : List (List Char)) :
    a ∈ sortLenDesc l ↔ a ∈ l := by
  simp [sortLenDesc, mem_foldl_ins]

theorem mem_dedupFirstF (a : List Char) :
    ∀ (fuel : Nat) (l : List (List Char)), l.length ≤ fuel →
      (a ∈ dedupFirstF fuel l ↔ a ∈ l) := by
  intro fuel
  induction fuel with
  | zero =>
    intro l h
    have : l = [] := List.length_eq_zero.mp (by omega)
    subst this
    simp [dedupFirstF]
  | succ fuel ih =>
    intro l h
    cases l with
    | nil => simp [dedupFirstF]
    | cons x xs =>
      simp only [dedupFirstF, List.mem_cons]
      rw [ih (xs.filter (fun y => y != x))
        (le_trans (List.length_filter_le _ _) (by simp at h; omega))]
      simp only [List.mem_filter, bne_iff_ne, ne_eq]
      by_cases hax : a = x
      · subst hax; tauto
      · tauto

theorem mem_dedupFirst (a : List Char) (l : List (List Char)) :
    a ∈ dedupFirst l ↔ a ∈ l :=
  mem_dedupFirstF a l.length l le_rfl

/-! ## Trim lemmas -/

theorem trimR_isPref : ∀ l : List Char, trimR l <+: l := by
  intro l
  induction l with
  | nil => simp [trimR]
  | cons c cs ih =>
    simp only [trimR]
    split
    · split
      · exact ⟨c :: cs, rfl⟩
      · exact ⟨cs, rfl⟩
    next d ds heq =>
      rw [heq] at ih
      obtain ⟨t, ht⟩ := ih
      exact ⟨t, by rw [List.cons_append, ht]⟩

theorem trimR_sublist (l : List Char) : (trimR l).Sublist l :=
  (trimR_isPref l).sublist

theorem trimWs_sublist (l : List Char) : (trimWs l).Sublist l :=
  (trimR_sublist (trimL l)).trans (List.dropWhile_sublist _)

/-- A character of the trimmed list is a character of the list. -/
theorem mem_of_mem_trimWs {c : Char} {l : List Char} (h : c ∈ trimWs l) : c ∈ l :=
  (trimWs_sublist l).mem h

theorem trimR_cons_of_ne_nil (c : Char) (l : List Char) (h : trimR l ≠ []) :
    trimR (c :: l) = c :: trimR l := by
  simp only [trimR]
  split
  next heq => exact absurd heq h
  next d ds heq => rw [heq]

theorem trimR_idem : ∀ l : List Char, trimR (trimR l) = trimR l := by
  intro l
  induction l with
  | nil => simp [trimR]
  | cons c cs ih =>
    cases heq : trimR cs with
    | nil =>
      simp only [trimR, heq]
      split
      · simp [trimR]
      next hw =>
        simp [trimR, hw]
    | cons d ds =>
      have hids : trimR (d :: ds) = d :: ds := by
        rw [← heq, ih]
      have h1 : trimR (c :: cs) = c :: d :: ds := by
        simp only [trimR, heq]
      rw [h1, trimR_cons_of_ne_nil c (d :: ds) (by rw [hids]; simp), hids]

theorem head_trimL_not_ws (l : List Char) :
    ∀ c cs, trimL l = c :: cs → isWsChar c = false := by
  induction l with
  | nil => intro c cs h; simp [trimL] at h
  | cons a as ih =>
    intro c cs h
    rw [trimL, List.dropWhile_cons] at h
    split at h
    · exact ih c cs h
    next ha =>
      cases h
      simpa using ha

theorem trimL_of_head_not_ws : ∀ l : List Char, (∀ c cs, l = c :: cs → isWsChar c = false) →
    trimL l = l := by
  intro l h
  cases l with
  | nil => rfl
  | cons c cs =>
    rw [trimL, List.dropWhile_cons_of_neg]
    simp [h c cs rfl]

theorem trimL_trimR_trimL (l : List Char) : trimL (trimR (trimL l)) = trimR (trimL l) := by
  apply trimL_of_head_not_ws
  intro c cs h
  obtain ⟨t, ht⟩ := trimR_isPref (trimL l)
  rw [h] at ht
  exact head_trimL_not_ws l c (cs ++ t) ht.symm

theorem trimWs_idem (l : List Char) : trimWs (trimWs l) = trimWs l := by
  rw [trimWs, trimWs, trimL_trimR_trimL, trimR_idem]

/-! ## Token characterization lemmas -/

theorem mem_tokens_iff (u : String) (t : String) (hb : (baseOf u).isEmpty = false) :
    t ∈ redactionTokensFromUsername u ↔
      t.data ∈ baseOf u :: (subsOf u ++ partsOf u) := by
  rw [redactionTokensFromUsername]
  simp only [hb, Bool.false_eq_true, if_false, List.mem_map]
  constructor
  · rintro ⟨a, ha, rfl⟩
    rw [mem_sortLenDesc, mem_dedupFirst] at ha
    exact ha
  · intro ha
    exact ⟨t.data, by rw [mem_sortLenDesc, mem_dedupFirst]; exact ha, rfl⟩

theorem mem_subsOf (u : String) (a : List Char) :
    a ∈ subsOf u ↔
      ∃ i L, 4 ≤ L ∧ L ≤ 8 ∧ i + L ≤ (baseOf u).length ∧
        a = ((baseOf u).drop i).take L := by
  rw [subsOf]
  simp only [List.mem_flatMap, List.mem_map, List.mem_range]
  constructor
  · rintro ⟨j, hj, i, hi, rfl⟩
    refine ⟨i, min 8 (baseOf u).length - j, by omega, by omega, by omega, rfl⟩
  · rintro ⟨i, L, h4, h8, hiL, rfl⟩
    refine ⟨min 8 (baseOf u).length - L, by omega, i, by omega, ?_⟩
    have : min 8 (baseOf u).length - (min 8 (baseOf u).length - L) = L := by omega
    rw [this]

theorem mem_partsOf (u : String) (a : List Char) :
    a ∈ partsOf u ↔
      (a ∈ (camelScan u.data).map (fun p => p.map Char.toLower) ∧ 4 ≤ a.length) := by
  rw [partsOf]
  simp [List.mem_filter]

theorem camelScanF_chars :
    ∀ (fuel : Nat) (l : List Char) (p : List Char), p ∈ camelScanF fuel l →
      ∀ c ∈ p, isAlnumChar c = true := by
  intro fuel
  induction fuel with
  | zero => intro l p hp; simp [camelScanF] at hp
  | succ fuel ih =>
    intro l p hp c hc
    cases l with
    | nil => simp [camelScanF] at hp
    | cons a as =>
      simp only [camelScanF] at hp
      by_cases hu : isUpperChar a = true
      · rw [if_pos hu] at hp
        by_cases hlo : (as.takeWhile isLowerChar).isEmpty = true
        · simp only [hlo, Bool.not_true, Bool.false_eq_true, if_false] at hp
          rcases List.mem_cons.mp hp with rfl | hrec
          · have hsub : c ∈ (a :: as).takeWhile isUpperChar := by
              split at hc
              · exact List.dropLast_sublist _ |>.mem hc
              · exact hc
            have := List.mem_takeWhile_imp hsub
            simp [isAlnumChar, isAlphaChar, this]
          · exact ih _ _ hrec c hc
        · simp only [hlo, Bool.not_false, if_true] at hp
          rcases List.mem_cons.mp hp with rfl | hrec
          · rcases List.mem_cons.mp hc with rfl | hin
            · simp [isAlnumChar, isAlphaChar, hu]
            · have := List.mem_takeWhile_imp hin
              simp [isAlnumChar, isAlphaChar, this]
          · exact ih _ _ hrec c hc
      · rw [if_neg hu] at hp
        by_cases hl : isLowerChar a = true
        · rw [if_pos hl] at hp
          rcases List.mem_cons.mp hp with rfl | hrec
          · have := List.mem_takeWhile_imp hc
            simp [isAlnumChar, isAlphaChar, this]
          · exact ih _ _ hrec c hc
        · rw [if_neg hl] at hp
          by_cases hd : isDigitChar a = true
          · rw [if_pos hd] at hp
            rcases List.mem_cons.mp hp with rfl | hrec
            · have := List.mem_takeWhile_imp hc
              simp [isAlnumChar, this]
            · exact ih _ _ hrec c hc
          · rw [if_neg hd] at hp
            exact ih _ _ hp c hc

/-- Every redaction token is nonempty and purely lowercase
alphanumeric. -/
theorem token_chars (u : String) (t : String) (ht : t ∈ redactionTokensFromUsername u) :
    t.data ≠ [] ∧ ∀ c ∈ t.data, isLowerAlnumChar c = true := by
  by_cases hb : (baseOf u).isEmpty = true
  · rw [redactionTokensFromUsername] at ht
    simp [hb] at ht
  · rw [mem_tokens_iff u t (by simpa using hb)] at ht
    rcases List.mem_cons.mp ht with hbase | hrest
    · constructor
      · rw [hbase]
        simpa using hb
      · intro c hc
        rw [hbase] at hc
        exact (List.mem_filter.mp hc).2
    · rcases List.mem_append.mp hrest with hsub | hpart
      · rw [mem_subsOf] at hsub
        obtain ⟨i, L, h4, h8, hiL, heq⟩ := hsub
        rw [heq]
        constructor
        · have hlen : (((baseOf u).drop i).take L).length = L := by
            simp [List.length_take, List.length_drop]
            omega
          intro hnil
          rw [hnil] at hlen
          simp at hlen
          omega
        · intro c hc
          have h1 : c ∈ (baseOf u).drop i := (List.take_sublist _ _).mem hc
          have h2 : c ∈ baseOf u := (List.drop_sublist _ _).mem h1
          exact (List.mem_filter.mp h2).2
      · rw [mem_partsOf] at hpart
        obtain ⟨hmem, hlen⟩ := hpart
        constructor
        · intro hnil
          rw [hnil] at hlen
          simp at hlen
        · simp only [List.mem_map] at hmem
          obtain ⟨p, hp, heq⟩ := hmem
          rw [← heq]
          intro c hc
          simp only [List.mem_map] at hc
          obtain ⟨d, hd, rfl⟩ := hc
          exact toLower_alnum_lowerAlnum d (camelScanF_chars _ _ _ hp d hd)

/-! ## Sortedness of the token list -/

theorem pairwise_insLenDesc (x : List Char) (l : List (List Char))
    (h : l.Pairwise (fun a b => b.length ≤ a.length)) :
    (insLenDesc x l).Pairwise (fun a b => b.length ≤ a.length) := by
  induction l with
  | nil => simp [insLenDesc]
  | cons y ys ih =>
    rw [List.pairwise_cons] at h
    obtain ⟨hy, hys⟩ := h
    simp only [insLenDesc]
    split
    next hc =>
      rw [List.pairwise_cons]
      constructor
      · intro z hz
        rcases (mem_insLenDesc z x ys).mp hz with rfl | hin
        · exact hc
        · exact hy z hin
      · exact ih hys
    next hc =>
      rw [List.pairwise_cons]
      constructor
      · intro z hz
        rcases List.mem_cons.mp hz with rfl | hin
        · omega
        · exact le_trans (hy z hin) (by omega)
      · rw [List.pairwise_cons]
        exact ⟨hy, hys⟩

theorem pairwise_foldl_ins :
    ∀ (l acc : List (List Char)),
      acc.Pairwise (fun a b => b.length ≤ a.length) →
      (l.foldl (fun acc x => insLenDesc x acc) acc).Pairwise
        (fun a b => b.length ≤ a.length) := by
  intro l
  induction l with
  | nil => intro acc h; simpa using h
  | cons x xs ih =>
    intro acc h
    exact ih _ (pairwise_insLenDesc x acc h)

theorem pairwise_sortLenDesc (l : List (List Char)) :
    (sortLenDesc l).Pairwise (fun a b => b.length ≤ a.length) :=
  pairwise_foldl_ins l [] (by simp)

/-! ## Claim C5: token-set construction -/

/-- C5: the token set of a handle is exactly the lowercased
alphanumeric base, its contiguous substrings of length 4 to
min(8, length of the base), and the camel-case and number segments of
the original handle of length at least 4 lowercased; the list is
sorted by descending length, and an empty base gives the empty set. -/
theorem c5_token_set_construction (h : String) :
    ((baseOf h).isEmpty = true → redactionTokensFromUsername h = []) ∧
    (∀ t : String, t ∈ redactionTokensFromUsername h ↔
      ((baseOf h).isEmpty = false ∧
        (t.data = baseOf h ∨
          (∃ i L, 4 ≤ L ∧ L ≤ 8 ∧ i + L ≤ (baseOf h).length ∧
            t.data = ((baseOf h).drop i).take L) ∨
          (t.data ∈ (camelScan h.data).map (fun p => p.map Char.toLower) ∧
            4 ≤ t.data.length)))) ∧
    (redactionTokensFromUsername h).Pairwise (fun a b : String => b.length ≤ a.length) := by
  refine ⟨?_, ?_, ?_⟩
  · intro hb
    simp [redactionTokensFromUsername, hb]
  · intro t
    by_cases hb : (baseOf h).isEmpty = true
    · rw [redactionTokensFromUsername]
      simp [hb]
    · have hb2 : (baseOf h).isEmpty = false := by simpa using hb
      rw [mem_tokens_iff h t hb2]
      simp only [List.mem_cons, List.mem_append, hb2, true_and]
      rw [mem_subsOf, mem_partsOf]
  · rw [redactionTokensFromUsername]
    split
    · simp
    · refine List.Pairwise.map String.mk (fun a b hab => ?_) (pairwise_sortLenDesc _)
      simpa [length_mk] using hab

/-- C5 (witness): a handle with no alphanumeric characters yields the
empty token set. -/
theorem c5_witness : redactionTokensFromUsername "--" = [] :=
  (c5_token_set_construction "--").1 (by rfl)

/-! ## Claim C9: sentence-dedupe idempotence -/

/-- The input contains a sentence-ending punctuation character. -/
def hasSentPunct (l : List Char) : Bool :=
  l.any (fun c => c == '.' || c == '!' || c == '?')

theorem splitSentF_noPunct :
    ∀ (fuel : Nat) (acc l : List Char), l.length ≤ fuel → hasSentPunct l = false →
      splitSentF fuel acc l = [acc.reverse ++ l] := by
  intro fuel
  induction fuel with
  | zero =>
    intro acc l hl _
    have : l = [] := List.length_eq_zero.mp (by omega)
    subst this
    simp [splitSentF]
  | succ fuel ih =>
    intro acc l hl hp
    cases l with
    | nil => simp [splitSentF]
    | cons c cs =>
      simp only [hasSentPunct, List.any_cons, Bool.or_eq_false_iff] at hp
      have hsep : mSentSep (c :: cs) = none := by
        rw [mSentSep]
        rw [if_pos]
        simp only [Bool.not_eq_eq_eq_not, Bool.not_true, Bool.or_eq_false_iff]
        exact hp.1
      simp only [splitSentF, hsep]
      rw [ih (c :: acc) cs (by simp at hl; omega) (by rw [hasSentPunct]; exact hp.2)]
      simp

theorem hasSentPunct_trimWs (l : List Char) (h : hasSentPunct l = false) :
    hasSentPunct (trimWs l) = false := by
  rw [hasSentPunct, List.any_eq_false]
  intro c hc
  rw [hasSentPunct, List.any_eq_false] at h
  exact h c (mem_of_mem_trimWs hc)

theorem dedupeSentencesL_noPunct (l : List Char) (h : hasSentPunct l = false) :
    dedupeSentencesL l = trimWs l := by
  have hs : splitSent l = [l] := by
    rw [splitSent]
    simpa using splitSentF_noPunct l.length [] l le_rfl h
  simp [dedupeSentencesL, hs]

/-- C9 (counterexample): sentence-level dedupe is not idempotent.  On
"ok.! ok. " the first pass keeps both sentences but its final trim
glues the closing period onto the last sentence, which the second pass
then drops as a repeat of the preceding sentence. -/
theorem c9_dedupe_sentences_counterexample :
    dedupeSentences (dedupeSentences "ok.! ok. ") ≠ dedupeSentences "ok.! ok. " := by
  decide

/-- C9 (amended): sentence-level dedupe is not idempotent in general;
it is idempotent on every string containing no sentence-ending
punctuation character, where the pass is exactly a trim. -/
theorem c9_dedupe_sentences_idem_no_punct (s : String) (h : hasSentPunct s.data = false) :
    dedupeSentences (dedupeSentences s) = dedupeSentences s := by
  simp only [dedupeSentences, dedupeSentencesL_noPunct s.data h]
  have h2 : dedupeSentencesL (trimWs s.data) = trimWs (trimWs s.data) :=
    dedupeSentencesL_noPunct _ (hasSentPunct_trimWs s.data h)
  show String.mk (dedupeSentencesL (trimWs s.data)) = String.mk (trimWs s.data)
  rw [h2, trimWs_idem]

/-- C9 (witness): idempotence on a punctuation-free string. -/
theorem c9_witness :
    hasSentPunct "hello world".data = false ∧
      dedupeSentences (dedupeSentences "hello world") = dedupeSentences "hello world" :=
  ⟨by decide, c9_dedupe_sentences_idem_no_punct "hello world" (by decide)⟩

/-! ## Claim C6: head-duplication collapse -/

/-- The splice condition of `dedupeHead` at a given `n`. -/
def spliceCond (txt : List Char) (n : Nat) : Bool :=
  let a := txt.take n
  let b := (txt.drop n).take n
  !a.isEmpty && !b.isEmpty && a.isPrefixOf b

/-- The first `n`, counting down, whose splice condition holds (the
countdown mirrors the source loop bounds 40 down to 20). -/
def findSpliceN (txt : List Char) : Nat → Option Nat
  | 0 => none
  | n + 1 =>
    if n + 1 < 20 then none
    else if spliceCond txt (n + 1) then some (n + 1)
    else findSpliceN txt n

theorem dedupeHeadGo_eq_findSpliceN (txt : List Char) :
    ∀ n : Nat, dedupeHeadGo txt n =
      (match findSpliceN txt n with
       | some m => trimWs (txt.take m ++ txt.drop (2 * m))
       | none => txt) := by
  intro n
  induction n with
  | zero => simp [dedupeHeadGo, findSpliceN]
  | succ n ih =>
    by_cases h20 : n + 1 < 20
    · simp [dedupeHeadGo, findSpliceN, h20]
    · by_cases hc : spliceCond txt (n + 1) = true
      · have e1 : dedupeHeadGo txt (n + 1) =
            trimWs (txt.take (n + 1) ++ txt.drop (2 * (n + 1))) := by
          simp only [dedupeHeadGo, h20, if_false]
          rw [if_pos]
          simpa [spliceCond] using hc
        have e2 : findSpliceN txt (n + 1) = some (n + 1) := by
          simp [findSpliceN, h20, hc]
        rw [e1, e2]
      · have e1 : dedupeHeadGo txt (n + 1) = dedupeHeadGo txt n := by
          simp only [dedupeHeadGo, h20, if_false]
          rw [if_neg]
          simpa [spliceCond] using hc
        have e2 : findSpliceN txt (n + 1) = findSpliceN txt n := by
          simp [findSpliceN, h20, hc]
        rw [e1, e2, ih]

/-- Modelled from the claim: the head-duplication pass that, after a
splice, keeps scanning from the reduced string (the source instead
returns immediately after the first splice).  Each splice removes at
least 20 characters, so fuel equal to the length suffices for the
rescan loop. -/
def dedupeHeadSpecF : Nat → List Char → List Char
  | 0, txt => txt
  | fuel + 1, txt =>
    if txt.length < 30 then txt
    else
      match findSpliceN txt 40 with
      | some n => dedupeHeadSpecF fuel (trimWs (txt.take n ++ txt.drop (2 * n)))
      | none => txt

def dedupeHeadSpec (l : List Char) : List Char := dedupeHeadSpecF l.length (trimWs l)

def c6Input : String := "abcdefghijklmnopqrstabcdefghijklmnopqrstabcdefghijklmnopqrst"

/-- C6 (counterexample): on a triple repetition of a 20-character
block, the source pass splices once and returns a string that still
begins with a duplicated head, while the keep-scanning semantics of
the claim reduces it to a single block. -/
theorem c6_dedupe_head_counterexample :
    dedupeHead c6Input ≠ String.mk (dedupeHeadSpec c6Input.data) := by
  decide

/-- C6 (amended): for inputs whose trimmed form has length at least
30, the pass returns, for the first `N` from 40 down to 20 whose first
`N` characters are immediately repeated at position `N`, the spliced
and trimmed string — immediately, with no further scanning of the
reduced string; shorter inputs are returned trimmed. -/
theorem c6_dedupe_head_single_splice (s : String) :
    dedupeHead s =
      String.mk
        (let txt := trimWs s.data
         if txt.length < 30 then txt
         else
           match findSpliceN txt 40 with
           | some m => trimWs (txt.take m ++ txt.drop (2 * m))
           | none => txt) := by
  simp only [dedupeHead, dedupeHeadL]
  split
  · rfl
  · rw [dedupeHeadGo_eq_findSpliceN]

/-! ## Claim C8: video-host empty-block sentinel -/

/-- C8: when the captured Description block contains no alphanumeric
character, the video-host extractor returns the empty string, and the
pipeline returns the empty result for any URL dispatched to it. -/
theorem c8_empty_block_sentinel (md url : String) (b : List Char)
    (hb : ytBlockBody md = some b) (ha : hasAlnumL b = false)
    (hu : containsCS "youtube.com".data (url.data.map Char.toLower) = true) :
    extractYouTubeMainByline md url = "" ∧ extractBylineFor url md = "" := by
  have h1 : extractYouTubeMainByline md url = "" := by
    simp only [extractYouTubeMainByline, hb]
    simp [ha]
  refine ⟨h1, ?_⟩
  simp only [extractBylineFor, hu]
  simpa using h1

def c8Md : String := "----\nDescription\n\nLinks\n[Website](http://x.com)"

def c8Url : String := "https://www.youtube.com/@chefsam/about"

/-- C8 (witness): the scenario of the specification, a Description
heading followed only by boilerplate. -/
theorem c8_witness :
    ytBlockBody c8Md = some [] ∧ hasAlnumL [] = false ∧
      extractYouTubeMainByline c8Md c8Url = "" ∧ extractBylineFor c8Url c8Md = "" := by
  refine ⟨by rfl, by rfl, ?_, ?_⟩
  · exact (c8_empty_block_sentinel c8Md c8Url [] (by rfl) (by rfl) (by rfl)).1
  · exact (c8_empty_block_sentinel c8Md c8Url [] (by rfl) (by rfl) (by rfl)).2

/-! ## Claim C4: pipeline ordering -/

def collapseLeading (s : String) : String := String.mk (collapseLeadingL s.data)

/-- Modelled from the claim: the video-host pipeline with the
leading-phrase collapse, sentence dedupe and head-duplication collapse
applied to the candidate before `redactBylineSystem`, as the claim
asserts the code does. -/
def ytDedupeFirst (markdown sourceUrl : String) : String :=
  match ytBlockBody markdown with
  | none => ""
  | some body =>
    if !hasAlnumL body then ""
    else
      let b1 := ytStripArtifacts body
      let b2 := collapseLeadingL b1
      let b3 := dedupeSentencesL b2
      let b4 := dedupeHeadL b3
      let b5 := (redactBylineSystem (String.mk b4) sourceUrl).data
      let b6 := stripMaskedTailL b5
      String.mk (clamp200L b6)

def c4Md : String := "Description\nabcd rocks. efgh rocks."

def c4Url : String := "https://youtube.com/@abcdefgh"

/-- C4 (counterexample): redaction does not run after deduplication.
On a block with two sentences that differ only in handle tokens, the
code (redact first) collapses them to one, while the dedupe-first
order of the claim keeps both; the outputs differ. -/
theorem c4_ordering_counterexample :
    extractYouTubeMainByline c4Md c4Url ≠ ytDedupeFirst c4Md c4Url := by
  decide

/-- The paragraph-selection stage of the generic extractor (source
lines 400-414): split into paragraphs, clean and filter the lines of
each, drop empty and BAD-word paragraphs, and keep the
highest-scoring one. -/
def genBest (markdown : String) : List Char :=
  let txt := (unwrapJina markdown).data
  let paras := (((splitPara txt).map (fun p =>
      let lns := (((splitNl p).map trimWs).filter (fun s => !s.isEmpty)).filter
        (fun s => !isNavLine s)
      (stripLinksAndJunk (String.mk (joinSp lns))).data)).filter
    (fun p => !p.isEmpty)).filter (fun p => !hasBadWord none p)
  (paras.foldl
    (fun (acc : List Char × Int) p =>
      if genScore p > acc.2 then (p, genScore p) else acc) ([], -1)).1

/-- C4 (amended): in every extractor path redaction runs before
deduplication.  In the video-host extractor the candidate block is
redacted first and the leading-phrase collapse, sentence dedupe,
head-duplication collapse and masked-tail cleanup all run on the
already-redacted string; the block path of the streaming-host
extractor and the generic extractor likewise redact the candidate
before both dedupe passes; and the streaming-host fallback path
applies no dedupe pass at all, only redaction and the clamp. -/
theorem c4_redact_before_dedupe :
    (∀ md url : String, ∀ b : List Char,
      ytBlockBody md = some b → hasAlnumL b = true →
      extractYouTubeMainByline md url =
        clamp200 (stripMaskedTail (dedupeHead (dedupeSentences
          (collapseLeading (redactBylineSystem (String.mk (ytStripArtifacts b)) url)))))) ∧
    (∀ md url : String, ∀ idx len : Nat,
      followersScan ((unwrapJina md).data.drop (twitchStartAt (unwrapJina md).data)) =
          some (idx, len) →
      extractTwitchAboutByline md url =
        clamp200 (stripMaskedTail (dedupeHead (dedupeSentences
          (redactBylineSystem
            (String.mk (twitchBlockByline
              (((unwrapJina md).data.drop (twitchStartAt (unwrapJina md).data)).drop
                (idx + len)))) url))))) ∧
    (∀ md url : String,
      followersScan ((unwrapJina md).data.drop (twitchStartAt (unwrapJina md).data)) =
          none →
      extractTwitchAboutByline md url =
        clamp200 (redactBylineSystem
          (String.mk (twitchCleanFallback
            ((unwrapJina md).data.drop (twitchStartAt (unwrapJina md).data)))) url)) ∧
    (∀ md : String,
      extractGenericByline md =
        clamp200 (stripMaskedTail (dedupeHead (dedupeSentences
          (redactBylineSystem (String.mk (genBest md)) ""))))) := by
  refine ⟨?_, ?_, ?_, ?_⟩
  · intro md url b hb ha
    simp only [extractYouTubeMainByline, hb, ha, Bool.not_true, Bool.false_eq_true, if_false,
      clamp200, stripMaskedTail, dedupeHead, dedupeSentences, collapseLeading, data_mk]
  · intro md url idx len h
    simp only [extractTwitchAboutByline, h, clamp200, stripMaskedTail, dedupeHead,
      dedupeSentences, data_mk]
  · intro md url h
    simp only [extractTwitchAboutByline, h, clamp200, data_mk]
  · intro md
    simp only [extractGenericByline, genBest, clamp200, stripMaskedTail, dedupeHead,
      dedupeSentences, data_mk]

def c4TwMd : String := "hello\n10 followers\nGreat streams ahead\n"

def c4TwUrl : String := "https://twitch.tv/purplecat"

def c4FbMd : String := "just chatting vibes"

def c4GenMd : String := "A channel about games and my cooking adventures."

/-- C4 (witness): the four ordering equations instantiated on concrete
inputs discharging each hypothesis — the video-host counterexample
block, a streaming-host input with a follower line, one without, and
a generic-host input. -/
theorem c4_witness :
    ytBlockBody c4Md = some "abcd rocks. efgh rocks.".data ∧
    extractYouTubeMainByline c4Md c4Url =
      clamp200 (stripMaskedTail (dedupeHead (dedupeSentences
        (collapseLeading (redactBylineSystem
          (String.mk (ytStripArtifacts "abcd rocks. efgh rocks.".data)) c4Url))))) ∧
    followersScan ((unwrapJina c4TwMd).data.drop (twitchStartAt (unwrapJina c4TwMd).data)) =
        some (5, 14) ∧
    extractTwitchAboutByline c4TwMd c4TwUrl =
      clamp200 (stripMaskedTail (dedupeHead (dedupeSentences
        (redactBylineSystem
          (String.mk (twitchBlockByline
            (((unwrapJina c4TwMd).data.drop (twitchStartAt (unwrapJina c4TwMd).data)).drop
              (5 + 14)))) c4TwUrl)))) ∧
    followersScan ((unwrapJina c4FbMd).data.drop (twitchStartAt (unwrapJina c4FbMd).data)) =
        none ∧
    extractTwitchAboutByline c4FbMd c4TwUrl =
      clamp200 (redactBylineSystem
        (String.mk (twitchCleanFallback
          ((unwrapJina c4FbMd).data.drop (twitchStartAt (unwrapJina c4FbMd).data)))) c4TwUrl) ∧
    extractGenericByline c4GenMd =
      clamp200 (stripMaskedTail (dedupeHead (dedupeSentences
        (redactBylineSystem (String.mk (genBest c4GenMd)) "")))) :=
  ⟨by rfl,
   c4_redact_before_dedupe.1 c4Md c4Url _ (by rfl) (by rfl),
   by rfl,
   c4_redact_before_dedupe.2.1 c4TwMd c4TwUrl 5 14 (by rfl),
   by rfl,
   c4_redact_before_dedupe.2.2.1 c4FbMd c4TwUrl (by rfl),
   c4_redact_before_dedupe.2.2.2 c4GenMd⟩

/-! ## Claim C7: streaming-host fallback -/

/-- C7 (amended): the streaming-host extractor falls back to the
generic cleanup exactly when no follower-count line is found — where
the search starts after the About heading when one exists and at the
beginning of the text otherwise; the absence of an About heading alone
does not trigger the fallback. -/
theorem c7_fallback_on_no_followers (md url : String)
    (h : followersScan ((unwrapJina md).data.drop (twitchStartAt (unwrapJina md).data)) = none) :
    extractTwitchAboutByline md url =
      clamp200 (redactBylineSystem
        (String.mk (twitchCleanFallback
          ((unwrapJina md).data.drop (twitchStartAt (unwrapJina md).data)))) url) := by
  simp only [extractTwitchAboutByline, h, clamp200, data_mk]

def c7Md : String := "hello\n10 followers\nGreat streams ahead\n"

def c7Url : String := "https://twitch.tv/purplecat"

/-- C7 (counterexample): an input with no About heading but with a
follower-count line is not sent to the fallback: the extractor takes
the block path after the follower line, and its output differs from
the generic cleanup of the whole text that the claim prescribes. -/
theorem c7_fallback_counterexample :
    (splitNl (unwrapJina c7Md).data).find? twitchAboutLineTest = none ∧
      extractTwitchAboutByline c7Md c7Url ≠
        clamp200 (redactBylineSystem
          (String.mk (twitchCleanFallback (unwrapJina c7Md).data)) c7Url) :=
  ⟨by rfl, by decide⟩

def c7FbMd : String := "just chatting vibes"

/-- C7 (witness): the fallback equation instantiated on an input with
no follower-count line. -/
theorem c7_witness :
    followersScan ((unwrapJina c7FbMd).data.drop (twitchStartAt (unwrapJina c7FbMd).data)) =
        none ∧
      extractTwitchAboutByline c7FbMd c7Url =
        clamp200 (redactBylineSystem
          (String.mk (twitchCleanFallback
            ((unwrapJina c7FbMd).data.drop (twitchStartAt (unwrapJina c7FbMd).data)))) c7Url) :=
  ⟨by rfl, c7_fallback_on_no_followers c7FbMd c7Url (by rfl)⟩

/-! ## Claim C1: no-leak invariant -/

def c1Url : String := "https://kick.com/zilvergamer"

def c1Md : String := "zilvergamer plays games every night here."

/-- C1 (the code evaluated at the failing input): for a generic-host
URL the pipeline byline contains the full channel handle, which is a
member of the redaction token set derived from that URL — the generic
extractor calls the redaction system with an empty source URL, so
handle-derived tokens are never masked on that path. -/
theorem c1_no_leak_failing_input :
    "zilvergamer" ∈ redactionTokensFromUsername (usernameFromAnyUrl c1Url) ∧
      containsCI "zilvergamer".data (extractBylineFor c1Url c1Md).data = true :=
  ⟨by decide, by rfl⟩

/-! ## Claim C3: idempotence of redaction — occurrence lemmas

The second application of the token sub-pass and of the whitespace
collapse never changes an already-redacted string; the lemmas below
establish that a masked string contains no case-insensitive token
occurrence, and that a replacement pass is the identity on strings
with no occurrence. -/

theorem containsCI_cons (t : List Char) (c : Char) (cs : List Char) :
    containsCI t (c :: cs) = (isPrefCI t (c :: cs) || containsCI t cs) := rfl

theorem containsCI_of_tail (t : List Char) (c : Char) (cs : List Char)
    (h : containsCI t cs = true) : containsCI t (c :: cs) = true := by
  rw [containsCI_cons, h, Bool.or_true]

theorem isPrefCI_append_right (t : List Char) :
    ∀ (l y : List Char), isPrefCI t l = true → isPrefCI t (l ++ y) = true := by
  induction t with
  | nil => intro l y _; rfl
  | cons a t' ih =>
    intro l y h
    cases l with
    | nil => simp [isPrefCI] at h
    | cons b bs =>
      simp only [isPrefCI, Bool.and_eq_true] at h
      simp only [List.cons_append, isPrefCI, Bool.and_eq_true]
      exact ⟨h.1, ih bs y h.2⟩

theorem containsCI_append_left (t : List Char) :
    ∀ (x y : List Char), containsCI t x = true → containsCI t (x ++ y) = true := by
  intro x
  induction x with
  | nil =>
    intro y h
    simp only [containsCI] at h
    cases t with
    | nil => cases y with
      | nil => exact h
      | cons c cs => simp [containsCI, isPrefCI]
    | cons a t' => simp [isPrefCI] at h
  | cons c cs ih =>
    intro y h
    rw [containsCI_cons, Bool.or_eq_true] at h
    rw [List.cons_append, containsCI_cons, Bool.or_eq_true]
    rcases h with h | h
    · exact Or.inl (by rw [← List.cons_append]; exact isPrefCI_append_right t _ y h)
    · exact Or.inr (ih y h)

theorem containsCI_of_drop (t : List Char) :
    ∀ (n : Nat) (l : List Char), containsCI t (l.drop n) = true → containsCI t l = true := by
  intro n
  induction n with
  | zero => intro l h; simpa using h
  | succ n ih =>
    intro l h
    cases l with
    | nil => simpa using h
    | cons c cs =>
      rw [List.drop_succ_cons] at h
      exact containsCI_of_tail t c cs (ih cs h)

theorem containsCI_of_dropWhile (t : List Char) (p : Char → Bool) :
    ∀ l : List Char, containsCI t (l.dropWhile p) = true → containsCI t l = true := by
  intro l
  induction l with
  | nil => intro h; simpa using h
  | cons c cs ih =>
    intro h
    rw [List.dropWhile_cons] at h
    split at h
    · exact containsCI_of_tail t c cs (ih h)
    · exact h

/-- An occurrence in the trimmed string is an occurrence in the
string. -/
theorem containsCI_of_trimWs (t l : List Char) (h : containsCI t (trimWs l) = true) :
    containsCI t l = true := by
  apply containsCI_of_dropWhile t isWsChar
  obtain ⟨tail, htail⟩ := trimR_isPref (trimL l)
  rw [trimWs] at h
  simp only [trimL] at htail ⊢
  rw [← htail]
  exact containsCI_append_left t _ tail h

/-- Skipping a mask block: when the head of the token matches no mask
character case-insensitively, an occurrence cannot start inside the
mask. -/
theorem containsCI_mask_skip (a : Char) (t' : List Char) :
    ∀ (mask z : List Char), (∀ mc ∈ mask, lowerEq a mc = false) →
      containsCI (a :: t') (mask ++ z) = containsCI (a :: t') z := by
  intro mask
  induction mask with
  | nil => intro z _; rfl
  | cons mc ms ih =>
    intro z hm
    rw [List.cons_append, containsCI_cons]
    have h1 : isPrefCI (a :: t') (mc :: (ms ++ z)) = false := by
      simp only [isPrefCI]
      rw [hm mc (by simp)]
      rfl
    rw [h1, Bool.false_or]
    exact ih z (fun x hx => hm x (by simp [hx]))

/-- Prefix transfer through a replacement pass: a token of lowercase
alphanumerics that is a case-insensitive prefix of the output is a
case-insensitive prefix of the input, for any mask whose characters
never match such a token character. -/
theorem isPrefCI_replAllF (m : List Char → Option Nat) (mask : List Char)
    (hmask : ∀ a : Char, isLowerAlnumChar a = true → ∀ mc ∈ mask, lowerEq a mc = false)
    (hmne : mask ≠ []) :
    ∀ (fuel : Nat) (l t : List Char), (∀ c ∈ t, isLowerAlnumChar c = true) →
      isPrefCI t (replAllF m mask fuel l) = true → isPrefCI t l = true := by
  intro fuel
  induction fuel with
  | zero => intro l t _ h; simpa [replAllF] using h
  | succ fuel ih =>
    intro l t ht h
    cases l with
    | nil => simpa [replAllF] using h
    | cons c cs =>
      cases hm : m (c :: cs) with
      | some k =>
        simp only [replAllF, hm] at h
        cases t with
        | nil => rfl
        | cons a t' =>
          cases mask with
          | nil => exact absurd rfl hmne
          | cons mc ms =>
            rw [List.cons_append] at h
            simp only [isPrefCI, Bool.and_eq_true] at h
            have := hmask a (ht a (by simp)) mc (by simp)
            rw [this] at h
            simp at h
      | none =>
        simp only [replAllF, hm] at h
        cases t with
        | nil => rfl
        | cons a t' =>
          simp only [isPrefCI, Bool.and_eq_true] at h ⊢
          exact ⟨h.1, ih cs t' (fun x hx => ht x (by simp [hx])) h.2⟩

/-- Occurrence transfer through a replacement pass. -/
theorem containsCI_replAllF (m : List Char → Option Nat) (mask : List Char)
    (hmask : ∀ a : Char, isLowerAlnumChar a = true → ∀ mc ∈ mask, lowerEq a mc = false)
    (hmne : mask ≠ []) :
    ∀ (fuel : Nat) (l : List Char) (a : Char) (t' : List Char),
      (∀ c ∈ a :: t', isLowerAlnumChar c = true) →
      containsCI (a :: t') (replAllF m mask fuel l) = true →
      containsCI (a :: t') l = true := by
  intro fuel
  induction fuel with
  | zero => intro l a t' _ h; simpa [replAllF] using h
  | succ fuel ih =>
    intro l a t' ht h
    cases l with
    | nil => simpa [replAllF] using h
    | cons c cs =>
      cases hm : m (c :: cs) with
      | some k =>
        simp only [replAllF, hm] at h
        rw [containsCI_mask_skip a t' mask _
          (fun mc hmc => hmask a (ht a (by simp)) mc hmc)] at h
        have h2 := ih (cs.drop (k - 1)) a t' ht h
        have h3 := containsCI_of_drop (a :: t') (k - 1) cs h2
        exact containsCI_of_tail _ c cs h3
      | none =>
        simp only [replAllF, hm] at h
        rw [containsCI_cons, Bool.or_eq_true] at h
        rcases h with h | h
        · have := isPrefCI_replAllF m mask hmask hmne (fuel + 1) (c :: cs) (a :: t') ht ?_
          · rw [containsCI_cons, this, Bool.true_or]
          · simp only [replAllF, hm]
            exact h
        · exact containsCI_of_tail _ c cs (ih cs a t' ht h)

/-- The token matcher fires wherever a token is a case-insensitive
prefix. -/
theorem mToks_ne_none (toks : List (List Char)) (l t : List Char)
    (htoks : t ∈ toks) (hne : t ≠ []) (hpre : isPrefCI t l = true) :
    mToks toks l ≠ none := by
  intro hnone
  rw [mToks, List.findSome?_eq_none_iff] at hnone
  have := hnone t htoks
  rw [if_pos] at this
  · exact Option.some_ne_none _ this
  · simp [hne, hpre]

/-- No token of the token list occurs case-insensitively in the
output of the token-masking pass. -/
theorem no_token_in_maskToksF (toks : List (List Char))
    (htok : ∀ t ∈ toks, t ≠ [] ∧ ∀ c ∈ t, isLowerAlnumChar c = true) :
    ∀ (fuel : Nat) (l : List Char), l.length ≤ fuel →
      ∀ t ∈ toks, containsCI t (replAllF (mToks toks) "****".data fuel l) = false := by
  have hmask : ∀ a : Char, isLowerAlnumChar a = true →
      ∀ mc ∈ ("****".data : List Char), lowerEq a mc = false := by
    intro a ha mc hmc
    have : mc = '*' := by
      simp only [show ("****".data : List Char) = ['*', '*', '*', '*'] from rfl,
        List.mem_cons] at hmc
      rcases hmc with rfl | rfl | rfl | rfl | h
      any_goals rfl
      simp at h
    rw [this]
    exact lowerEq_star_false a ha
  intro fuel
  induction fuel with
  | zero =>
    intro l hl t htm
    have : l = [] := List.length_eq_zero.mp (by omega)
    subst this
    obtain ⟨hne, _⟩ := htok t htm
    cases t with
    | nil => exact absurd rfl hne
    | cons a t' => simp [replAllF, containsCI, isPrefCI]
  | succ fuel ih =>
    intro l hl t htm
    obtain ⟨hne, hch⟩ := htok t htm
    cases l with
    | nil =>
      cases t with
      | nil => exact absurd rfl hne
      | cons a t' => simp [replAllF, containsCI, isPrefCI]
    | cons c cs =>
      simp only [replAllF]
      cases hm : mToks toks (c :: cs) with
      | some k =>
        cases t with
        | nil => exact absurd rfl hne
        | cons a t' =>
          rw [containsCI_mask_skip a t' _ _
            (fun mc hmc => hmask a (hch a (by simp)) mc hmc)]
          exact ih (cs.drop (k - 1))
            (by simp only [List.length_drop]; simp at hl; omega) _ htm
      | none =>
        rw [containsCI_cons]
        apply Bool.or_eq_false_iff.mpr
        constructor
        · by_contra hby
          rw [Bool.not_eq_false] at hby
          have hpre := isPrefCI_replAllF (mToks toks) "****".data hmask (by simp)
            (fuel + 1) (c :: cs) t hch ?_
          · exact mToks_ne_none toks (c :: cs) t htm hne hpre hm
          · simp only [replAllF, hm]
            exact hby
        · exact ih cs (by simp at hl; omega) t htm

/-- A replacement pass with the token matcher is the identity on a
string with no token occurrence. -/
theorem maskToksF_id (toks : List (List Char)) :
    ∀ (fuel : Nat) (l : List Char),
      (∀ t ∈ toks, containsCI t l = false) →
      replAllF (mToks toks) "****".data fuel l = l := by
  intro fuel
  induction fuel with
  | zero => intro l _; rfl
  | succ fuel ih =>
    intro l hno
    cases l with
    | nil => rfl
    | cons c cs =>
      simp only [replAllF]
      cases hm : mToks toks (c :: cs) with
      | some k =>
        exfalso
        rw [mToks, List.findSome?_eq_some_iff] at hm
        obtain ⟨l₁, tw, l₂, heq, hf, _⟩ := hm
        have htw : tw ∈ toks := by rw [heq]; simp
        split at hf
        next hcond =>
          simp only [Bool.and_eq_true, Bool.not_eq_eq_eq_not, Bool.not_true] at hcond
          have hx := hno tw htw
          simp [containsCI_cons, hcond.2] at hx
        next => exact Option.noConfusion hf
      | none =>
        have hcs : ∀ t ∈ toks, containsCI t cs = false := by
          intro t htm
          have := hno t htm
          rw [containsCI_cons, Bool.or_eq_false_iff] at this
          exact this.2
        rw [ih cs hcs]

/-! ## Whitespace-collapse invariants -/

theorem replAllF_nil (m : List Char → Option Nat) (mask : List Char) :
    ∀ fuel : Nat, replAllF m mask fuel [] = [] := by
  intro fuel
  cases fuel <;> rfl

/-- No two adjacent whitespace characters. -/
def noWs2 : List Char → Bool
  | [] => true
  | [_] => true
  | a :: b :: t => !(isWsChar a && isWsChar b) && noWs2 (b :: t)

/-- Every whitespace character is a plain space. -/
def spaceWs (l : List Char) : Bool := l.all (fun c => !isWsChar c || c == ' ')

theorem drop_runLen (p : Char → Bool) : ∀ l : List Char, l.drop (runLen p l) = l.dropWhile p := by
  intro l
  induction l with
  | nil => rfl
  | cons c cs ih =>
    by_cases h : p c = true
    · rw [runLen, List.takeWhile_cons, if_pos h]
      simpa [List.dropWhile_cons, h, runLen] using ih
    · rw [runLen, List.takeWhile_cons, if_neg h]
      simp [List.dropWhile_cons, h]

theorem collapse_head_not_ws (fuel : Nat) (c : Char) (cs : List Char)
    (h : isWsChar c = false) :
    ∃ r, replAllF mWsRun [' '] fuel (c :: cs) = c :: r := by
  cases fuel with
  | zero => exact ⟨cs, rfl⟩
  | succ f =>
    have hm : mWsRun (c :: cs) = none := by
      simp [mWsRun, runLen, List.takeWhile_cons, h]
    exact ⟨replAllF mWsRun [' '] f cs, by simp [replAllF, hm]⟩

theorem noWs2_cons (c : Char) (l : List Char) (hc : isWsChar c = false)
    (hl : noWs2 l = true) : noWs2 (c :: l) = true := by
  cases l with
  | nil => rfl
  | cons d ds =>
    simp only [noWs2, Bool.and_eq_true]
    exact ⟨by simp [hc], hl⟩

theorem collapse_ok : ∀ (fuel : Nat) (l : List Char), l.length ≤ fuel →
    noWs2 (replAllF mWsRun [' '] fuel l) = true ∧
      spaceWs (replAllF mWsRun [' '] fuel l) = true := by
  intro fuel
  induction fuel with
  | zero =>
    intro l hl
    have : l = [] := List.length_eq_zero.mp (by omega)
    subst this
    exact ⟨rfl, rfl⟩
  | succ fuel ih =>
    intro l hl
    cases l with
    | nil => exact ⟨rfl, rfl⟩
    | cons c cs =>
      cases hm : mWsRun (c :: cs) with
      | none =>
        have hc : isWsChar c = false := by
          rw [mWsRun] at hm
          by_contra hby
          rw [Bool.not_eq_false] at hby
          rw [if_neg] at hm
          · exact Option.noConfusion hm
          · simp [runLen, List.takeWhile_cons, hby]
        obtain ⟨hn, hs⟩ := ih cs (by simp at hl; omega)
        constructor
        · simp only [replAllF, hm]
          exact noWs2_cons c _ hc hn
        · simp only [replAllF, hm, spaceWs, List.all_cons]
          rw [spaceWs] at hs
          simp [hc, hs]
      | some k =>
        have hk : k = runLen isWsChar (c :: cs) := by
          rw [mWsRun] at hm
          split at hm
          · exact Option.noConfusion hm
          · exact (Option.some.inj hm).symm
        have hdrop : cs.drop (k - 1) = (c :: cs).dropWhile isWsChar := by
          have h1 := drop_runLen isWsChar (c :: cs)
          have hk1 : 1 ≤ k := by
            rw [mWsRun] at hm
            split at hm
            · exact Option.noConfusion hm
            next hne => simp at hne; omega
          have h2 : (c :: cs).drop k = cs.drop (k - 1) := by
            cases k with
            | zero => omega
            | succ k0 => simp [List.drop_succ_cons]
          rw [← h2, hk]
          exact h1
        obtain ⟨hn, hs⟩ := ih (cs.drop (k - 1))
          (by simp only [List.length_drop]; simp at hl; omega)
        constructor
        · simp only [replAllF, hm, List.singleton_append]
          cases hd : cs.drop (k - 1) with
          | nil =>
            rw [replAllF_nil]
            rfl
          | cons c2 cs2 =>
            have hc2 : isWsChar c2 = false := by
              apply head_trimL_not_ws (c :: cs) c2 cs2
              rw [trimL, ← hdrop, hd]
            obtain ⟨r, hr⟩ := collapse_head_not_ws fuel c2 cs2 hc2
            rw [hd] at hn
            rw [hr] at hn ⊢
            simp only [noWs2, Bool.and_eq_true]
            exact ⟨by simp [hc2], hn⟩
        · simp only [replAllF, hm, List.singleton_append, spaceWs, List.all_cons]
          rw [spaceWs] at hs
          simp [hs]

theorem noWs2_tail (c : Char) (l : List Char) (h : noWs2 (c :: l) = true) :
    noWs2 l = true := by
  cases l with
  | nil => rfl
  | cons d ds =>
    simp only [noWs2, Bool.and_eq_true] at h
    exact h.2

theorem collapse_id_on_ok : ∀ (fuel : Nat) (l : List Char),
    noWs2 l = true → spaceWs l = true → replAllF mWsRun [' '] fuel l = l := by
  intro fuel
  induction fuel with
  | zero => intro l _ _; rfl
  | succ fuel ih =>
    intro l hn hs
    cases l with
    | nil => rfl
    | cons c cs =>
      by_cases hc : isWsChar c = true
      · have hcsp : c = ' ' := by
          rw [spaceWs, List.all_cons, Bool.and_eq_true] at hs
          have h1 := hs.1
          rw [Bool.or_eq_true] at h1
          rcases h1 with h1 | h1
          · simp [hc] at h1
          · exact eq_of_beq h1
        subst hcsp
        cases cs with
        | nil =>
          have hm : mWsRun [' '] = some 1 := by decide
          simp [replAllF, hm, replAllF_nil]
        | cons d ds =>
          have h0 : (!(isWsChar ' ' && isWsChar d) && noWs2 (d :: ds)) = true := hn
          have hw : isWsChar ' ' = true := by decide
          rw [hw] at h0
          simp only [Bool.true_and, Bool.and_eq_true, Bool.not_eq_true'] at h0
          have hk : runLen isWsChar (' ' :: d :: ds) = 1 := by
            simp [runLen, List.takeWhile_cons, hw, h0.1]
          have hm : mWsRun (' ' :: d :: ds) = some 1 := by
            rw [mWsRun, hk]
            rfl
          simp only [replAllF, hm, List.singleton_append]
          have hds : (d :: ds).drop (1 - 1) = d :: ds := by simp
          rw [hds]
          rw [ih (d :: ds) h0.2 (by
            rw [spaceWs] at hs ⊢
            rw [List.all_cons, Bool.and_eq_true] at hs
            exact hs.2)]
      · have hm : mWsRun (c :: cs) = none := by
          simp [mWsRun, runLen, List.takeWhile_cons, hc]
        simp only [replAllF, hm]
        rw [ih cs (noWs2_tail c cs hn) (by
          rw [spaceWs] at hs ⊢
          rw [List.all_cons, Bool.and_eq_true] at hs
          exact hs.2)]

theorem noWs2_append_left : ∀ (x y : List Char), noWs2 (x ++ y) = true → noWs2 x = true := by
  intro x
  induction x with
  | nil => intro y _; rfl
  | cons a x' ih =>
    intro y h
    cases x' with
    | nil => rfl
    | cons b x2 =>
      simp only [List.cons_append, noWs2, Bool.and_eq_true] at h ⊢
      exact ⟨h.1, ih y h.2⟩

theorem noWs2_dropWhile (p : Char → Bool) :
    ∀ l : List Char, noWs2 l = true → noWs2 (l.dropWhile p) = true := by
  intro l
  induction l with
  | nil => intro _; rfl
  | cons c cs ih =>
    intro h
    rw [List.dropWhile_cons]
    split
    · exact ih (noWs2_tail c cs h)
    · exact h

theorem spaceWs_of_sublist (x y : List Char) (hsub : x.Sublist y)
    (h : spaceWs y = true) : spaceWs x = true := by
  rw [spaceWs, List.all_eq_true] at h ⊢
  exact fun c hc => h c (hsub.mem hc)

theorem noWs2_trimWs (l : List Char) (h : noWs2 l = true) : noWs2 (trimWs l) = true := by
  obtain ⟨tail, htail⟩ := trimR_isPref (trimL l)
  rw [trimWs]
  apply noWs2_append_left _ tail
  rw [htail]
  exact noWs2_dropWhile isWsChar l h

theorem spaceWs_trimWs (l : List Char) (h : spaceWs l = true) :
    spaceWs (trimWs l) = true :=
  spaceWs_of_sublist _ l (trimWs_sublist l) h

theorem collapseTrim_idem (l : List Char) : collapseTrim (collapseTrim l) = collapseTrim l := by
  have hok := collapse_ok l.length l le_rfl
  have hok2 : noWs2 (collapseWsL l) = true ∧ spaceWs (collapseWsL l) = true := by
    rw [collapseWsL, replAll]
    exact hok
  have hn : noWs2 (trimWs (collapseWsL l)) = true := noWs2_trimWs _ hok2.1
  have hs : spaceWs (trimWs (collapseWsL l)) = true := spaceWs_trimWs _ hok2.2
  show trimWs (collapseWsL (trimWs (collapseWsL l))) = trimWs (collapseWsL l)
  rw [show collapseWsL (trimWs (collapseWsL l)) = trimWs (collapseWsL l) from by
    rw [collapseWsL, replAll]
    exact collapse_id_on_ok _ _ hn hs]
  exact trimWs_idem _

/-- The final collapse-and-trim of the redaction system is stable on
its own output. -/
theorem collapseTrim_data_redact (s url : String) :
    collapseTrim (redactBylineSystem s url).data = (redactBylineSystem s url).data := by
  simp only [redactBylineSystem, data_mk]
  exact collapseTrim_idem _

/-- No redaction token occurs case-insensitively in a redacted
byline. -/
theorem no_token_in_redact (s url : String) (t : String)
    (ht : t ∈ redactionTokensFromUsername (usernameFromAnyUrl url)) :
    containsCI t.data (redactBylineSystem s url).data = false := by
  have htc := token_chars _ _ ht
  have htoks : ((redactionTokensFromUsername (usernameFromAnyUrl url)).map
      String.data).isEmpty = false := by
    cases hcase : redactionTokensFromUsername (usernameFromAnyUrl url) with
    | nil => rw [hcase] at ht; simp at ht
    | cons a as => rfl
  have hmem : t.data ∈ (redactionTokensFromUsername (usernameFromAnyUrl url)).map
      String.data := List.mem_map_of_mem String.data ht
  simp only [redactBylineSystem, data_mk, htoks, Bool.false_eq_true, if_false]
  by_contra hby
  rw [Bool.not_eq_false] at hby
  have hsp : ∀ a : Char, isLowerAlnumChar a = true →
      ∀ mc ∈ ([' '] : List Char), lowerEq a mc = false := by
    intro a ha mc hmc
    have : mc = ' ' := by simpa using hmc
    rw [this]
    exact lowerEq_space_false a ha
  cases hd : t.data with
  | nil => exact htc.1 hd
  | cons a t' =>
    rw [hd] at hby
    have hch : ∀ c ∈ a :: t', isLowerAlnumChar c = true := by
      rw [← hd]
      exact htc.2
    have h1 := containsCI_of_trimWs (a :: t') _ hby
    rw [collapseWsL, replAll] at h1
    have h2 := containsCI_replAllF mWsRun [' '] hsp (by simp) _ _ a t' hch h1
    have h3 := no_token_in_maskToksF
      ((redactionTokensFromUsername (usernameFromAnyUrl url)).map String.data)
      (by
        intro td htd
        simp only [List.mem_map] at htd
        obtain ⟨ts, hts, rfl⟩ := htd
        exact token_chars _ _ hts)
      (maskUrls (maskEmails s.data)).length (maskUrls (maskEmails s.data)) le_rfl t.data hmem
    rw [maskToksL, replAll] at h2
    rw [hd] at h3
    rw [h2] at h3
    exact Bool.true_eq_false.mp h3

/-- C3 (amended): redaction is not idempotent in general, but a second
pass changes nothing beyond its email and URL sub-passes: whenever
those two sub-passes leave the once-redacted string unchanged, the
full second redaction is the identity — the token sub-pass never finds
an occurrence in a redacted string and the whitespace collapse is
stable on it. -/
theorem c3_redact_second_pass (s url : String)
    (h1 : maskEmails (redactBylineSystem s url).data = (redactBylineSystem s url).data)
    (h2 : maskUrls (redactBylineSystem s url).data = (redactBylineSystem s url).data) :
    redactBylineSystem (redactBylineSystem s url) url = redactBylineSystem s url := by
  conv_lhs => rw [redactBylineSystem]
  rw [h1, h2]
  by_cases htoks : ((redactionTokensFromUsername (usernameFromAnyUrl url)).map
      String.data).isEmpty = true
  · simp only [htoks, if_true]
    rw [collapseTrim_data_redact]
  · simp only [htoks, Bool.false_eq_true, if_false]
    rw [show maskToksL ((redactionTokensFromUsername (usernameFromAnyUrl url)).map
        String.data) (redactBylineSystem s url).data = (redactBylineSystem s url).data from by
      rw [maskToksL, replAll]
      apply maskToksF_id
      intro td htd
      simp only [List.mem_map] at htd
      obtain ⟨ts, hts, rfl⟩ := htd
      exact no_token_in_redact s url ts hts]
    rw [collapseTrim_data_redact]

/-- C3 (counterexample): redaction is not idempotent.  Masking the
handle token in "abcdwww.foo" produces "****www.foo", exposing a word
boundary before "www.", and the second application masks the now
visible URL, yielding "********". -/
theorem c3_idempotence_counterexample :
    redactBylineSystem (redactBylineSystem "abcdwww.foo" "https://twitch.tv/abcd")
        "https://twitch.tv/abcd" ≠
      redactBylineSystem "abcdwww.foo" "https://twitch.tv/abcd" := by
  decide

/-- C3 (witness): the second-pass identity on a concrete redacted
string. -/
theorem c3_witness :
    maskEmails (redactBylineSystem "hello abcd world" "https://twitch.tv/abcd").data =
        (redactBylineSystem "hello abcd world" "https://twitch.tv/abcd").data ∧
      maskUrls (redactBylineSystem "hello abcd world" "https://twitch.tv/abcd").data =
        (redactBylineSystem "hello abcd world" "https://twitch.tv/abcd").data ∧
      redactBylineSystem (redactBylineSystem "hello abcd world" "https://twitch.tv/abcd")
          "https://twitch.tv/abcd" =
        redactBylineSystem "hello abcd world" "https://twitch.tv/abcd" :=
  ⟨by rfl, by rfl, c3_redact_second_pass "hello abcd world" "https://twitch.tv/abcd"
    (by rfl) (by rfl)⟩
